import Mathlib

/-!
# Peg solitaire random-moves solver (`peg.c`)

A shallow embedding of the simulation core of `peg.c` and a verification of
its specification.

Conventions of the embedding.

* `board_t` is `char [9][9]`; a board is a total map `Fin 9 → Fin 9 → Nat`.
  Cells are addressed with C `int` indices, modelled by `Int`.  A read or a
  write whose column or row index lies outside `0..8` leaves the array: it
  is undefined behaviour in C and yields `none` here, and `none` propagates
  through every operation that contains it.
* The `moves` and `game` buffers are modelled by lists; their capacity (32
  entries each) is a separate proof obligation, not part of the operations.
* `unsigned long long` values are `Nat` reduced modulo `2 ^ 64`, and
  `unsigned int` values are `Nat` reduced modulo `2 ^ 32`.
* Loops that C leaves unbounded (`while (1)`, `do ... while`) take a fuel
  argument and return `none` when it runs out.
-/

namespace Peg

/-! ## Data model -/

/-- The flag `#define HOLE 0x1`. -/
def HOLE : Nat := 0x1

/-- The flag `#define PEG 0x2`. -/
def PEG : Nat := 0x2

/-- The cell value `#define EMPTY_HOLE HOLE`. -/
def EMPTY_HOLE : Nat := HOLE

/-- The cell value `#define FILLED_HOLE (HOLE|PEG)`. -/
def FILLED_HOLE : Nat := HOLE ||| PEG

/-- The type `typedef char board_t [9] [9];`, indexed `board [x] [y]`. -/
abbrev Board := Fin 9 → Fin 9 → Nat

/-- The type `typedef struct { int x, y, dx, dy; } move_t;`. -/
structure Move where
  x : Int
  y : Int
  dx : Int
  dy : Int
  deriving DecidableEq, Repr

/-- Both indices address an element of the `9 x 9` array. -/
def InGrid (x y : Int) : Prop := 0 ≤ x ∧ x < 9 ∧ 0 ≤ y ∧ y < 9

instance (x y : Int) : Decidable (InGrid x y) :=
  inferInstanceAs (Decidable (0 ≤ x ∧ x < 9 ∧ 0 ≤ y ∧ y < 9))

/-- The rvalue `board [x] [y]`; `none` when an index is out of range. -/
def Board.read (b : Board) (x y : Int) : Option Nat :=
  if h : InGrid x y then
    some (b ⟨x.toNat, by unfold InGrid at h; omega⟩ ⟨y.toNat, by unfold InGrid at h; omega⟩)
  else none

/-- The assignment `board [x] [y] = v`; `none` when an index is out of range. -/
def Board.write (b : Board) (x y : Int) (v : Nat) : Option Board :=
  if InGrid x y then
    some (fun i j => if (i.val : Int) = x ∧ (j.val : Int) = y then v else b i j)
  else none

/-- The test `board [x] [y] & HOLE` of `fprintf_board`: the cell is a playable hole. -/
def isHole (c : Nat) : Bool := c &&& HOLE != 0

/-- A cell that is not a hole is off-board. -/
def offBoard (c : Nat) : Bool := !isHole c

/-! ## Board initialisation (`peg.c` lines 123-131) -/

/-- The loop indices `1 .. 7` of `for (y = 1; y <= 7; ++y)`. -/
def idx17 : List Int := [1, 2, 3, 4, 5, 6, 7]

/-- The loop indices `3 .. 5` of `for (x = 3; x <= 5; ++x)`. -/
def idx35 : List Int := [3, 4, 5]

/-- The result of `memset (board, 0, sizeof (board))`. -/
def zeroBoard : Board := fun _ _ => 0

/-- The body of the initialisation loop:
`board [x] [y] = FILLED_HOLE; board [y] [x] = FILLED_HOLE;`. -/
def initCell (b : Board) (x y : Int) : Option Board :=
  (b.write x y FILLED_HOLE).bind fun b1 => b1.write y x FILLED_HOLE

/-- The inner loop `for (y = 1; y <= 7; ++y)` of the initialisation. -/
def initRow (x : Int) : List Int → Board → Option Board
  | [], b => some b
  | y :: ys, b => (initCell b x y).bind (initRow x ys)

/-- The outer loop `for (x = 3; x <= 5; ++x)` of the initialisation. -/
def initRows : List Int → Board → Option Board
  | [], b => some b
  | x :: xs, b => (initRow x idx17 b).bind (initRows xs)

/-- The whole initialisation: `memset`, the two loops, then
`board [4] [4] = EMPTY_HOLE`. -/
def initBoardOpt : Option Board :=
  (initRows idx35 zeroBoard).bind fun b => b.write 4 4 EMPTY_HOLE

/-- The initial board; the initialisation writes in range only, so the
default is never used (`initBoardOpt_eq`). -/
def initBoard : Board := initBoardOpt.getD zeroBoard

/-! ## Legal-move enumeration (`peg.c` lines 144-183) -/

/-- The enumerator's outputs: the `moves` buffer filled so far (`mp - moves`
entries) and `num_pegs`. -/
structure Scan where
  moves : List Move
  num_pegs : Nat
  deriving DecidableEq, Repr

/-- The condition
`board [x+dx] [y+dy] == FILLED_HOLE && board [x+dx+dx] [y+dy+dy] == EMPTY_HOLE`
with C's short-circuit evaluation: the second cell is read only when the
first comparison holds. -/
def probe (b : Board) (x y dx dy : Int) : Option Bool :=
  (b.read (x + dx) (y + dy)).bind fun c1 =>
    if c1 = FILLED_HOLE then
      (b.read (x + dx + dx) (y + dy + dy)).map fun c2 => decide (c2 = EMPTY_HOLE)
    else some false

/-- One of the four `if` blocks of the scan: when the probe succeeds, store
the move at `mp` and advance `mp`. -/
def tryDir (b : Board) (x y dx dy : Int) (s : Scan) : Option Scan :=
  (probe b x y dx dy).map fun ok =>
    if ok then { s with moves := s.moves ++ [⟨x, y, dx, dy⟩] } else s

/-- The body of the scan for the cell `(x, y)`: count a peg and try the
directions `+x`, `-x`, `+y`, `-y` in this order. -/
def scanCell (b : Board) (x y : Int) (s : Scan) : Option Scan :=
  (b.read x y).bind fun c =>
    if c = FILLED_HOLE then
      (tryDir b x y 1 0 { s with num_pegs := s.num_pegs + 1 }).bind fun s1 =>
      (tryDir b x y (-1) 0 s1).bind fun s2 =>
      (tryDir b x y 0 1 s2).bind fun s3 =>
      tryDir b x y 0 (-1) s3
    else some s

/-- The inner loop `for (y = 1; y <= 7; ++y)` of the scan. -/
def scanRow (b : Board) (x : Int) : List Int → Scan → Option Scan
  | [], s => some s
  | y :: ys, s => (scanCell b x y s).bind (scanRow b x ys)

/-- The outer loop `for (x = 1; x <= 7; ++x)` of the scan. -/
def scanRows (b : Board) : List Int → Scan → Option Scan
  | [], s => some s
  | x :: xs, s => (scanRow b x idx17 s).bind (scanRows b xs)

/-- The enumerator: `mp = moves`, `num_pegs = 0`, then the two loops. -/
def enumerate (b : Board) : Option Scan :=
  scanRows b idx17 ⟨[], 0⟩

/-! ## Move execution (`peg.c` lines 220-221) -/

/-- The two statements
`board [x] [y] = board [x+dx] [y+dy] = EMPTY_HOLE;`
`board [x+dx+dx] [y+dy+dy] = FILLED_HOLE;`. -/
def applyMove (b : Board) (m : Move) : Option Board :=
  (b.write (m.x + m.dx) (m.y + m.dy) EMPTY_HOLE).bind fun b1 =>
  (b1.write m.x m.y EMPTY_HOLE).bind fun b2 =>
  b2.write (m.x + m.dx + m.dx) (m.y + m.dy + m.dy) FILLED_HOLE

/-! ## Pseudo-random generator and move choice (`peg.c` lines 107-110, 206-216) -/

/-- The recurrence `kernel = ((kernel << 4) - kernel) ^ 1` on
`unsigned long long`: shift and subtraction wrap modulo `2 ^ 64`. -/
def nextKernel (k : Nat) : Nat :=
  (((k <<< 4) % 2 ^ 64 + 2 ^ 64 - k % 2 ^ 64) % 2 ^ 64) ^^^ 1

/-- The seeding loop `for (i = 0; i < 100; ++i) kernel = ...` applied to the
value of `time (NULL)`. -/
def seedKernel (t : Nat) : Nat := nextKernel^[100] (t % 2 ^ 64)

/-- The value `(int)(kernel >> 56)`: the top byte of the kernel. -/
def topByte (k : Nat) : Nat := k >>> 56

/-- The comparison `byte >= 256 / num_moves * num_moves` of the loop test, in
`int` arithmetic: the byte falls in the trailing remainder. -/
def rejectedByte (n byte : Nat) : Bool := decide (256 / n * n ≤ byte)

/-- The reduction `byte % num_moves` that offsets `mp`. -/
def pickIndex (n byte : Nat) : Nat := byte % n

/-- The loop test `(int)(kernel >> 56) >= 256 / num_moves * num_moves`: the
top byte of the kernel is rejected and drawn again. -/
def rejected (k n : Nat) : Bool := rejectedByte n (topByte k)

/-- The `do ... while` loop of the move choice: three steps of the
recurrence, repeated while the top byte is rejected. -/
def redraw : Nat → Nat → Nat → Option Nat
  | 0, _, _ => none
  | fuel + 1, k, n =>
    let k3 := nextKernel (nextKernel (nextKernel k))
    if rejected k3 n then redraw fuel k3 n else some k3

/-- The move choice: `mp = moves`, and when `num_moves > 1` the kernel is
redrawn and `mp += (int)(kernel >> 56) % num_moves`.  The redraw loop is the
parameter `draw`; the result is the new kernel and the offset of `mp`. -/
def choose (draw : Nat → Nat → Option Nat) (k n : Nat) : Option (Nat × Nat) :=
  if 1 < n then (draw k n).map fun k1 => (k1, pickIndex n (topByte k1)) else some (k, 0)

/-! ## The game loop (`peg.c` lines 143-223) -/

/-- The variables of one game that live across iterations of `while (1)`. -/
structure GameState where
  kernel : Nat
  board : Board
  game : List Move

/-- What a finished game leaves behind: the kernel, the final board, the
`game` record and the `num_pegs` of the last scan. -/
structure Outcome where
  kernel : Nat
  board : Board
  game : List Move
  num_pegs : Nat

/-- The loop `while (1)`: scan; when there is no move, stop with the
outcome; otherwise choose a move, execute it and store it in `game`. -/
def playLoop (draw : Nat → Nat → Option Nat) : Nat → GameState → Option Outcome
  | 0, _ => none
  | fuel + 1, s =>
    (enumerate s.board).bind fun e =>
      if e.moves.length = 0 then
        some ⟨s.kernel, s.board, s.game, e.num_pegs⟩
      else
        (choose draw s.kernel e.moves.length).bind fun c =>
        (e.moves.get? c.2).bind fun m =>
        (applyMove s.board m).bind fun b1 =>
        playLoop draw fuel ⟨c.1, b1, s.game ++ [m]⟩

/-- One game: fresh board, empty `game` record (`gp = game`), then the loop. -/
def playGame (draw : Nat → Nat → Option Nat) (fuel k : Nat) : Option Outcome :=
  initBoardOpt.bind fun b => playLoop draw fuel ⟨k, b, []⟩

/-! ## Specification-level notions -/

/-- The three-cell condition of a jump: origin filled, neighbour in the
direction of the move filled, cell two steps away empty. -/
def Jump (b : Board) (m : Move) : Prop :=
  b.read m.x m.y = some FILLED_HOLE ∧
  b.read (m.x + m.dx) (m.y + m.dy) = some FILLED_HOLE ∧
  b.read (m.x + m.dx + m.dx) (m.y + m.dy + m.dy) = some EMPTY_HOLE

instance (b : Board) (m : Move) : Decidable (Jump b m) :=
  inferInstanceAs (Decidable (_ ∧ _ ∧ _))

/-- The direction is one of `+col`, `-col`, `+row`, `-row`. -/
def UnitDir (m : Move) : Prop :=
  (m.dx = 1 ∧ m.dy = 0) ∨ (m.dx = -1 ∧ m.dy = 0) ∨
  (m.dx = 0 ∧ m.dy = 1) ∨ (m.dx = 0 ∧ m.dy = -1)

instance (m : Move) : Decidable (UnitDir m) :=
  inferInstanceAs (Decidable (_ ∨ _ ∨ _ ∨ _))

/-- The origin lies in columns and rows `1..7`. -/
def OriginInside (m : Move) : Prop :=
  1 ≤ m.x ∧ m.x ≤ 7 ∧ 1 ≤ m.y ∧ m.y ≤ 7

instance (m : Move) : Decidable (OriginInside m) :=
  inferInstanceAs (Decidable (_ ∧ _ ∧ _ ∧ _))

/-- The legality predicate of the specification (section 3), written from
its words: a move with origin in `1..7 x 1..7` and a unit direction is legal
on a board iff the origin is filled-hole, the adjacent cell in the move
direction is filled-hole, and the cell two steps in that direction is
empty-hole (and on the grid, which `Board.read` returning `some` says). -/
def Legal (b : Board) (m : Move) : Prop :=
  OriginInside m ∧ UnitDir m ∧ Jump b m

instance (b : Board) (m : Move) : Decidable (Legal b m) :=
  inferInstanceAs (Decidable (_ ∧ _ ∧ _))

/-- The four moves the scan considers at the cell `(x, y)`, in the order of
the four `if` blocks. -/
def candidatesAt (x y : Int) : List Move :=
  [⟨x, y, 1, 0⟩, ⟨x, y, -1, 0⟩, ⟨x, y, 0, 1⟩, ⟨x, y, 0, -1⟩]

/-- All moves the scan considers, in scan order. -/
def candidates : List Move :=
  idx17.flatMap fun x => idx17.flatMap fun y => candidatesAt x y

/-- The cells `(x, y)` with `x` and `y` in `1..7`, in scan order. -/
def interior : List (Int × Int) :=
  idx17.flatMap fun x => idx17.map fun y => (x, y)

/-- The indices `0 .. 8` of the array. -/
def idx08 : List Int := [0, 1, 2, 3, 4, 5, 6, 7, 8]

/-- All cells of the `9 x 9` array. -/
def grid : List (Int × Int) :=
  idx08.flatMap fun x => idx08.map fun y => (x, y)

/-- The number of cells of the list `cells` that hold `v`. -/
def countCells (v : Nat) (cells : List (Int × Int)) (b : Board) : Nat :=
  cells.countP fun p => b.read p.1 p.2 == some v

/-- The number of filled-hole cells of the whole board. -/
def pegCount (b : Board) : Nat := countCells FILLED_HOLE grid b

/-- A margin cell: column or row index `0` or `8`. -/
def IsMargin (i j : Fin 9) : Prop := i.val = 0 ∨ i.val = 8 ∨ j.val = 0 ∨ j.val = 8

instance (i j : Fin 9) : Decidable (IsMargin i j) :=
  inferInstanceAs (Decidable (_ ∨ _ ∨ _ ∨ _))

/-- A cell of the cross: inside `1..7 x 1..7` and in the central band of
columns `3..5` or of rows `3..5`. -/
def InCross (i j : Fin 9) : Prop :=
  (1 ≤ i.val ∧ i.val ≤ 7 ∧ 1 ≤ j.val ∧ j.val ≤ 7) ∧
  ((3 ≤ i.val ∧ i.val ≤ 5) ∨ (3 ≤ j.val ∧ j.val ≤ 5))

instance (i j : Fin 9) : Decidable (InCross i j) :=
  inferInstanceAs (Decidable (_ ∧ _))

/-- Every margin cell of the board is off-board. -/
def MarginOff (b : Board) : Prop := ∀ i j : Fin 9, IsMargin i j → offBoard (b i j) = true

instance (b : Board) : Decidable (MarginOff b) :=
  inferInstanceAs (Decidable (∀ i j : Fin 9, IsMargin i j → offBoard (b i j) = true))

/-- The holes of the board are exactly the cells of the cross. -/
def CrossHoles (b : Board) : Prop := ∀ i j : Fin 9, isHole (b i j) = true ↔ InCross i j

instance (b : Board) : Decidable (CrossHoles b) :=
  inferInstanceAs (Decidable (∀ i j : Fin 9, isHole (b i j) = true ↔ InCross i j))

/-- The boards the engine can reach: the initial board, and every board
obtained from a reachable one by executing a move of the enumerated list. -/
inductive Reachable : Board → Prop
  | init : Reachable initBoard
  | step {b b1 : Board} {e : Scan} {m : Move} :
      Reachable b → enumerate b = some e → m ∈ e.moves → applyMove b m = some b1 →
      Reachable b1

/-- The number of filled-hole cells in columns and rows `1..7`: what the
scan counts in `num_pegs`. -/
def numPegs (b : Board) : Nat := countCells FILLED_HOLE interior b

/-- The number of cells of the cross. -/
def crossSize : Nat :=
  (Finset.univ.filter fun p : Fin 9 × Fin 9 => InCross p.1 p.2).card

/-- Replaying a move history on a board, checking the legality predicate of
the specification at every move: the board after the last move, or `none`
when some move is not legal where it is played. -/
def replay : Board → List Move → Option Board
  | b, [] => some b
  | b, m :: ms => if Legal b m then (applyMove b m).bind fun b1 => replay b1 ms else none

/-- The number of byte values `0..255` that the loop test accepts for `n`
moves and that select the move of index `i`. -/
def hits (n i : Nat) : Nat :=
  Nat.count (fun byte => rejectedByte n byte = false ∧ pickIndex n byte = i) 256

/-- The number of byte values `0..255` that the loop test accepts for `n`
moves. -/
def acceptedBytes (n : Nat) : Nat :=
  Nat.count (fun byte => rejectedByte n byte = false) 256

/-! ## The run driver (`peg.c` lines 92-116, 187-202, 225) -/

/-- The variables of `main` that live across games: `histogram [32]`,
`game_count`, `kernel`, and the games handed to the printing code. -/
structure Driver where
  histogram : List Nat
  game_count : Nat
  kernel : Nat
  reported : List Outcome

/-- The driver before the first game: `game_count = 0` and
`memset (histogram, 0, sizeof (histogram))`. -/
def initDriver (k : Nat) : Driver := ⟨List.replicate 32 0, 0, k, []⟩

/-- The update `histogram [num_pegs]++` on `unsigned int`; `none` when the
index is outside the array. -/
def bump (h : List Nat) (i : Nat) : Option (List Nat) :=
  (h.get? i).map fun v => h.set i ((v + 1) % 2 ^ 32)

/-- The test `games_requested == 1 || num_pegs == 1` that guards the
printing of a finished game. -/
def reportable (games_requested num_pegs : Nat) : Bool :=
  games_requested == 1 || num_pegs == 1

/-- The loop condition
`games_requested ? game_count < games_requested : !histogram [1]`. -/
def continues (games_requested : Nat) (d : Driver) : Option Bool :=
  if games_requested ≠ 0 then some (decide (d.game_count < games_requested))
  else (d.histogram.get? 1).map fun v => decide (v = 0)

/-- One pass through the body of the outer loop: play a game, count its
outcome in the histogram, report it when reportable, `++game_count`. -/
def driverStep (draw : Nat → Nat → Option Nat) (fuel games_requested : Nat) (d : Driver) :
    Option Driver :=
  (playGame draw fuel d.kernel).bind fun out =>
  (bump d.histogram out.num_pegs).map fun h =>
    { histogram := h
      game_count := (d.game_count + 1) % 2 ^ 32
      kernel := out.kernel
      reported :=
        if reportable games_requested out.num_pegs then d.reported ++ [out] else d.reported }

/-- The outer loop of `main`. -/
def runLoop (draw : Nat → Nat → Option Nat) (fuel games_requested : Nat) :
    Nat → Driver → Option Driver
  | 0, _ => none
  | n + 1, d =>
    (continues games_requested d).bind fun c =>
      if c then (driverStep draw fuel games_requested d).bind
        (runLoop draw fuel games_requested n)
      else some d

/-- The driver states of a run: `Played n d` says that `d` is the state
after `n` completed games of a run that started with kernel `k`. -/
inductive Played (draw : Nat → Nat → Option Nat) (fuel games_requested k : Nat) :
    Nat → Driver → Prop
  | start : Played draw fuel games_requested k 0 (initDriver k)
  | game {n : Nat} {d d1 : Driver} :
      Played draw fuel games_requested k n d →
      continues games_requested d = some true →
      driverStep draw fuel games_requested d = some d1 →
      Played draw fuel games_requested k (n + 1) d1

/-- The final results loop `for (i = 1; i < 32; ++i) if (histogram [i]) ...`,
entered when `game_count > 1`: the pairs (peg count, number of games) that
it prints. -/
def finalReport (d : Driver) : List (Nat × Nat) :=
  if 1 < d.game_count then
    (List.range' 1 31).filterMap fun i =>
      (d.histogram.get? i).bind fun v => if v ≠ 0 then some (i, v) else none
  else []

/-- A redraw function that follows a script instead of the generator: the
low 56 bits of the kernel count the draws, and the top byte of the new
kernel is the scripted byte of that draw. -/
def scriptedDraw (script : List Nat) (k _n : Nat) : Option Nat :=
  some (script.getD (k % 2 ^ 56) 0 * 2 ^ 56 + (k % 2 ^ 56 + 1))

/-- The bytes of a game that ends with one peg: the offset of the chosen
move in the enumerated list, for each of its 31 moves. -/
def winningScript : List Nat :=
  [0, 0, 0, 0, 0, 0, 0, 0, 0, 0, 0, 0, 0, 0, 0, 1, 1, 2, 3, 0, 0, 0, 0, 0, 0, 2, 0, 1, 1, 1, 0]

/-- One turn of the `do ... while` body: three steps of the recurrence. -/
def step3 (k : Nat) : Nat := nextKernel (nextKernel (nextKernel k))

/-- The inverse of the recurrence on 64-bit words: undo the `^ 1`, then
multiply by the inverse of 15 modulo `2 ^ 64`. -/
def prevKernel (c : Nat) : Nat := (c ^^^ 1) * 0xEEEEEEEEEEEEEEEF % 2 ^ 64

/-- The map `x ↦ (p * x + q) mod 2 ^ 64` given by the pair `(p, q)`. -/
def affApply (f : Nat × Nat) (x : Nat) : Nat := (f.1 * x + f.2) % 2 ^ 64

/-- The pair of the composite of two such maps, `f` after `g`. -/
def affComp (f g : Nat × Nat) : Nat × Nat :=
  (f.1 * g.1 % 2 ^ 64, (f.1 * g.2 + f.2) % 2 ^ 64)

/-- The pair of the `2 ^ r`-fold iterate of the map of `f`. -/
def affPow2 (f : Nat × Nat) (r : Nat) : Nat × Nat := (fun g => affComp g g)^[r] f

/-- The number of jumps along a line of cells `c`, from origins `1..7` in the
two directions of the line: the terms of the scan for one row or column. -/
def lineJumps (c : Int → Option Nat) : Nat :=
  (idx17.map fun x =>
    (if c x = some FILLED_HOLE ∧ c (x + 1) = some FILLED_HOLE ∧
        c (x + 1 + 1) = some EMPTY_HOLE then 1 else 0) +
    (if c x = some FILLED_HOLE ∧ c (x + -1) = some FILLED_HOLE ∧
        c (x + -1 + -1) = some EMPTY_HOLE then 1 else 0)).sum

/-- The number of jumps from `(x, y)` along its row, to the right and to the
left: the first two `if` blocks of the scan. -/
def rowTerm (b : Board) (x y : Int) : Nat :=
  (if Jump b ⟨x, y, 1, 0⟩ then 1 else 0) + (if Jump b ⟨x, y, -1, 0⟩ then 1 else 0)

/-- The number of jumps from `(x, y)` along its column, down and up: the
last two `if` blocks of the scan. -/
def colTerm (b : Board) (x y : Int) : Nat :=
  (if Jump b ⟨x, y, 0, 1⟩ then 1 else 0) + (if Jump b ⟨x, y, 0, -1⟩ then 1 else 0)

/-- A board whose holes are exactly the cells of the cross, each of them
empty-hole or filled-hole. -/
def CrossBoard (b : Board) : Prop :=
  CrossHoles b ∧ ∀ i j : Fin 9, InCross i j → b i j = EMPTY_HOLE ∨ b i j = FILLED_HOLE

instance (b : Board) : Decidable (CrossBoard b) :=
  inferInstanceAs (Decidable (CrossHoles b ∧
    ∀ i j : Fin 9, InCross i j → b i j = EMPTY_HOLE ∨ b i j = FILLED_HOLE))

end Peg

namespace Peg

/-! ## Reading and writing cells -/

theorem read_eq_some_of_inGrid (b : Board) {x y : Int} (h : InGrid x y) :
    ∃ c, b.read x y = some c := by
  unfold Board.read
  rw [dif_pos h]
  exact ⟨_, rfl⟩

theorem inGrid_of_read {b : Board} {x y : Int} {c : Nat} (h : b.read x y = some c) :
    InGrid x y := by
  unfold Board.read at h
  by_cases hg : InGrid x y
  · exact hg
  · rw [dif_neg hg] at h
    cases h

theorem read_fin (b : Board) (i j : Fin 9) :
    b.read (i.val : Int) (j.val : Int) = some (b i j) := by
  have hg : InGrid (i.val : Int) (j.val : Int) := by
    unfold InGrid
    omega
  unfold Board.read
  rw [dif_pos hg]
  simp

theorem write_eq_some_of_inGrid (b : Board) {x y : Int} (v : Nat) (h : InGrid x y) :
    ∃ b1, b.write x y v = some b1 := by
  unfold Board.write
  rw [if_pos h]
  exact ⟨_, rfl⟩

theorem inGrid_of_write {b b1 : Board} {x y : Int} {v : Nat}
    (h : b.write x y v = some b1) : InGrid x y := by
  unfold Board.write at h
  by_cases hg : InGrid x y
  · exact hg
  · rw [if_neg hg] at h
    cases h

/-- A write changes the written cell and no other. -/
theorem read_write {b b1 : Board} {x y : Int} {v : Nat}
    (h : b.write x y v = some b1) (x1 y1 : Int) :
    b1.read x1 y1 = if x1 = x ∧ y1 = y then some v else b.read x1 y1 := by
  have hg := inGrid_of_write h
  unfold Board.write at h
  rw [if_pos hg] at h
  injection h with h
  subst h
  unfold Board.read
  by_cases hg1 : InGrid x1 y1
  · rw [dif_pos hg1, dif_pos hg1]
    have hx : ((x1.toNat : Nat) : Int) = x1 := Int.toNat_of_nonneg hg1.1
    have hy : ((y1.toNat : Nat) : Int) = y1 := Int.toNat_of_nonneg hg1.2.2.1
    simp only [hx, hy]
    by_cases hc : x1 = x ∧ y1 = y
    · rw [if_pos hc, if_pos hc]
    · rw [if_neg hc, if_neg hc]
  · rw [dif_neg hg1, dif_neg hg1]
    have hc : ¬ (x1 = x ∧ y1 = y) := by
      rintro ⟨rfl, rfl⟩
      exact hg1 hg
    rw [if_neg hc]

theorem read_write_same {b b1 : Board} {x y : Int} {v : Nat}
    (h : b.write x y v = some b1) : b1.read x y = some v := by
  rw [read_write h]
  simp

theorem read_write_other {b b1 : Board} {x y : Int} {v : Nat}
    (h : b.write x y v = some b1) {x1 y1 : Int} (hne : ¬ (x1 = x ∧ y1 = y)) :
    b1.read x1 y1 = b.read x1 y1 := by
  rw [read_write h, if_neg hne]

/-- Two boards with the same reads are equal. -/
theorem board_ext {b c : Board}
    (h : ∀ x y : Int, InGrid x y → b.read x y = c.read x y) : b = c := by
  funext i j
  have hg : InGrid (i.val : Int) (j.val : Int) := by
    unfold InGrid
    omega
  have := h _ _ hg
  rw [read_fin, read_fin] at this
  exact Option.some.inj this

/-! ## The enumerator -/

theorem probe_eq_some {b : Board} {x y dx dy : Int} {r : Bool}
    (h : probe b x y dx dy = some r) :
    r = true ↔ (b.read (x + dx) (y + dy) = some FILLED_HOLE ∧
      b.read (x + dx + dx) (y + dy + dy) = some EMPTY_HOLE) := by
  unfold probe at h
  cases h1 : b.read (x + dx) (y + dy) with
  | none => rw [h1] at h; cases h
  | some c1 =>
    rw [h1] at h
    simp only [Option.some_bind] at h
    by_cases hc : c1 = FILLED_HOLE
    · rw [if_pos hc] at h
      cases h2 : b.read (x + dx + dx) (y + dy + dy) with
      | none => rw [h2] at h; cases h
      | some c2 =>
        rw [h2] at h
        simp only [Option.map_some'] at h
        injection h with h
        subst h
        simp [hc]
    · rw [if_neg hc] at h
      injection h with h
      subst h
      simp [hc]

theorem tryDir_eq_some {b : Board} {x y dx dy : Int} {s s1 : Scan}
    (h : tryDir b x y dx dy s = some s1) :
    s1.num_pegs = s.num_pegs ∧
    s1.moves = s.moves ++ ([(⟨x, y, dx, dy⟩ : Move)].filter fun m =>
      decide (b.read (m.x + m.dx) (m.y + m.dy) = some FILLED_HOLE ∧
        b.read (m.x + m.dx + m.dx) (m.y + m.dy + m.dy) = some EMPTY_HOLE)) := by
  unfold tryDir at h
  cases hp : probe b x y dx dy with
  | none => rw [hp] at h; cases h
  | some r =>
    rw [hp] at h
    simp only [Option.map_some'] at h
    injection h with h
    have hr := probe_eq_some hp
    cases r with
    | true =>
      have hj := hr.mp rfl
      subst h
      simp [hj]
    | false =>
      have hj : ¬ (b.read (x + dx) (y + dy) = some FILLED_HOLE ∧
          b.read (x + dx + dx) (y + dy + dy) = some EMPTY_HOLE) := by
        intro hj
        have := hr.mpr hj
        cases this
      subst h
      simp [hj]

theorem scanCell_eq_some {b : Board} {x y : Int} {s s1 : Scan}
    (h : scanCell b x y s = some s1) :
    s1.moves = s.moves ++ (candidatesAt x y).filter (fun m => decide (Jump b m)) ∧
    s1.num_pegs = s.num_pegs + (if b.read x y = some FILLED_HOLE then 1 else 0) := by
  unfold scanCell at h
  obtain ⟨c, hc, h⟩ := Option.bind_eq_some.mp h
  by_cases hf : c = FILLED_HOLE
  · rw [if_pos hf] at h
    subst hf
    obtain ⟨t1, h1, h⟩ := Option.bind_eq_some.mp h
    obtain ⟨t2, h2, h⟩ := Option.bind_eq_some.mp h
    obtain ⟨t3, h3, h4⟩ := Option.bind_eq_some.mp h
    obtain ⟨p1, m1⟩ := tryDir_eq_some h1
    obtain ⟨p2, m2⟩ := tryDir_eq_some h2
    obtain ⟨p3, m3⟩ := tryDir_eq_some h3
    obtain ⟨p4, m4⟩ := tryDir_eq_some h4
    have key : ∀ dx dy : Int,
        [(⟨x, y, dx, dy⟩ : Move)].filter (fun m => decide (Jump b m)) =
        [(⟨x, y, dx, dy⟩ : Move)].filter (fun m =>
          decide (b.read (m.x + m.dx) (m.y + m.dy) = some FILLED_HOLE ∧
            b.read (m.x + m.dx + m.dx) (m.y + m.dy + m.dy) = some EMPTY_HOLE)) := by
      intro dx dy
      apply List.filter_congr
      intro m hm
      rw [List.mem_singleton] at hm
      subst hm
      simp [Jump, hc]
    have hsplit : candidatesAt x y =
        [(⟨x, y, 1, 0⟩ : Move)] ++ ([(⟨x, y, -1, 0⟩ : Move)] ++
          ([(⟨x, y, 0, 1⟩ : Move)] ++ [(⟨x, y, 0, -1⟩ : Move)])) := rfl
    constructor
    · rw [m4, m3, m2, m1, hsplit, List.filter_append, List.filter_append,
        List.filter_append, key, key, key, key]
      simp only [List.append_assoc]
    · rw [p4, p3, p2, p1, if_pos hc]
  · rw [if_neg hf] at h
    injection h with h
    subst h
    have hne : b.read x y ≠ some FILLED_HOLE := by
      rw [hc]
      intro h
      exact hf (Option.some.inj h)
    constructor
    · simp [candidatesAt, Jump, hne]
    · rw [if_neg hne]
      rfl

theorem scanRow_eq_some {b : Board} {x : Int} (ys : List Int) {s s1 : Scan}
    (h : scanRow b x ys s = some s1) :
    s1.moves = s.moves ++ (ys.flatMap fun y => candidatesAt x y).filter
      (fun m => decide (Jump b m)) ∧
    s1.num_pegs = s.num_pegs + countCells FILLED_HOLE (ys.map fun y => (x, y)) b := by
  induction ys generalizing s with
  | nil =>
    unfold scanRow at h
    injection h with h
    subst h
    simp [countCells]
  | cons y ys ih =>
    unfold scanRow at h
    obtain ⟨t, ht, h⟩ := Option.bind_eq_some.mp h
    obtain ⟨hm, hp⟩ := scanCell_eq_some ht
    obtain ⟨hm1, hp1⟩ := ih h
    constructor
    · rw [hm1, hm]
      simp [List.flatMap_cons, List.filter_append]
    · rw [hp1, hp]
      simp only [countCells, List.map_cons, List.countP_cons]
      by_cases hr : b.read x y = some FILLED_HOLE
      · simp [hr]; omega
      · simp [hr]

theorem scanRows_eq_some {b : Board} (xs : List Int) {s s1 : Scan}
    (h : scanRows b xs s = some s1) :
    s1.moves = s.moves ++
      (xs.flatMap fun x => idx17.flatMap fun y => candidatesAt x y).filter
        (fun m => decide (Jump b m)) ∧
    s1.num_pegs = s.num_pegs +
      countCells FILLED_HOLE (xs.flatMap fun x => idx17.map fun y => (x, y)) b := by
  induction xs generalizing s with
  | nil =>
    unfold scanRows at h
    injection h with h
    subst h
    simp [countCells]
  | cons x xs ih =>
    unfold scanRows at h
    obtain ⟨t, ht, h⟩ := Option.bind_eq_some.mp h
    obtain ⟨hm, hp⟩ := scanRow_eq_some idx17 ht
    obtain ⟨hm1, hp1⟩ := ih h
    constructor
    · rw [hm1, hm]
      simp [List.flatMap_cons, List.filter_append]
    · rw [hp1, hp]
      simp only [countCells, List.flatMap_cons, List.countP_append]
      omega

/-- What the enumerator returns, when it returns: the candidate moves that
satisfy the three-cell condition, in scan order, and the number of filled
cells of the interior. -/
theorem enumerate_eq_some {b : Board} {e : Scan} (h : enumerate b = some e) :
    e.moves = candidates.filter (fun m => decide (Jump b m)) ∧
    e.num_pegs = countCells FILLED_HOLE interior b := by
  obtain ⟨hm, hp⟩ := scanRows_eq_some idx17 h
  constructor
  · rw [hm]
    rfl
  · rw [hp]
    simp [interior]

theorem mem_idx17 {x : Int} : x ∈ idx17 ↔ 1 ≤ x ∧ x ≤ 7 := by
  simp only [idx17, List.mem_cons, List.mem_singleton, List.not_mem_nil, or_false]
  omega

theorem mem_candidates {m : Move} : m ∈ candidates ↔ OriginInside m ∧ UnitDir m := by
  obtain ⟨x, y, dx, dy⟩ := m
  simp only [candidates, List.mem_flatMap, candidatesAt, List.mem_cons, Move.mk.injEq,
    List.mem_singleton, List.not_mem_nil, or_false, OriginInside, UnitDir, mem_idx17]
  constructor
  · rintro ⟨a, ha, c, hc, h⟩
    rcases h with h | h | h | h <;> obtain ⟨rfl, rfl, rfl, rfl⟩ := h <;> simp [ha, hc]
  · rintro ⟨⟨h1, h2, h3, h4⟩, hd⟩
    refine ⟨x, ⟨h1, h2⟩, y, ⟨h3, h4⟩, ?_⟩
    rcases hd with h | h | h | h <;> obtain ⟨rfl, rfl⟩ := h <;> simp

theorem candidatesAt_nodup (x y : Int) : (candidatesAt x y).Nodup := by
  simp [candidatesAt]

theorem mem_candidatesAt {x y : Int} {m : Move} (h : m ∈ candidatesAt x y) :
    m.x = x ∧ m.y = y := by
  simp only [candidatesAt, List.mem_cons, List.mem_singleton, List.not_mem_nil, or_false] at h
  rcases h with h | h | h | h <;> subst h <;> exact ⟨rfl, rfl⟩

theorem idx17_nodup : idx17.Nodup := by decide

theorem candidates_nodup : candidates.Nodup := by
  unfold candidates
  rw [List.nodup_flatMap]
  constructor
  · intro x _
    rw [List.nodup_flatMap]
    constructor
    · intro y _
      exact candidatesAt_nodup x y
    · apply idx17_nodup.pairwise_of_forall_ne
      intro a _ b _ hab m h1 h2
      exact hab ((mem_candidatesAt h1).2.symm.trans (mem_candidatesAt h2).2)
  · apply idx17_nodup.pairwise_of_forall_ne
    intro a _ b _ hab m h1 h2
    obtain ⟨y1, _, h1⟩ := List.mem_flatMap.mp h1
    obtain ⟨y2, _, h2⟩ := List.mem_flatMap.mp h2
    exact hab ((mem_candidatesAt h1).1.symm.trans (mem_candidatesAt h2).1)


theorem legal_iff {b : Board} {m : Move} : Legal b m ↔ m ∈ candidates ∧ Jump b m := by
  rw [mem_candidates]
  unfold Legal
  tauto

theorem enumerate_mem_iff {b : Board} {e : Scan} (h : enumerate b = some e) (m : Move) :
    m ∈ e.moves ↔ Legal b m := by
  rw [(enumerate_eq_some h).1, List.mem_filter, legal_iff]
  simp

theorem enumerate_count {b : Board} {e : Scan} (h : enumerate b = some e) {m : Move}
    (hm : Legal b m) : e.moves.count m = 1 := by
  apply List.count_eq_one_of_mem
  · rw [(enumerate_eq_some h).1]
    exact candidates_nodup.filter _
  · exact (enumerate_mem_iff h m).mpr hm

theorem isHole_FILLED : isHole FILLED_HOLE = true := by decide

theorem isHole_EMPTY : isHole EMPTY_HOLE = true := by decide

theorem FILLED_ne_EMPTY : FILLED_HOLE ≠ EMPTY_HOLE := by decide

/-- On a board whose margin is off-board, a cell that holds a hole lies in
columns and rows `1..7`. -/
theorem inside_of_isHole {b : Board} (hb : MarginOff b) {x y : Int} {c : Nat}
    (hr : b.read x y = some c) (hc : isHole c = true) :
    1 ≤ x ∧ x ≤ 7 ∧ 1 ≤ y ∧ y ≤ 7 := by
  have hg := inGrid_of_read hr
  obtain ⟨g1, g2, g3, g4⟩ := hg
  have hx : ((x.toNat : Nat) : Int) = x := Int.toNat_of_nonneg g1
  have hy : ((y.toNat : Nat) : Int) = y := Int.toNat_of_nonneg g3
  have hi : x.toNat < 9 := by omega
  have hj : y.toNat < 9 := by omega
  have hf := read_fin b ⟨x.toNat, hi⟩ ⟨y.toNat, hj⟩
  simp only [hx, hy] at hf
  rw [hr] at hf
  have hcell := Option.some.inj hf
  by_contra hcon
  have hmar : IsMargin ⟨x.toNat, hi⟩ ⟨y.toNat, hj⟩ := by
    unfold IsMargin
    simp only
    omega
  have hoff := hb _ _ hmar
  rw [← hcell] at hoff
  unfold offBoard at hoff
  rw [hc] at hoff
  cases hoff

theorem probe_isSome {b : Board} (hb : MarginOff b) {x y : Int} (dx dy : Int)
    (hx : 1 ≤ x ∧ x ≤ 7) (hy : 1 ≤ y ∧ y ≤ 7)
    (hd : (dx = 1 ∧ dy = 0) ∨ (dx = -1 ∧ dy = 0) ∨ (dx = 0 ∧ dy = 1) ∨ (dx = 0 ∧ dy = -1)) :
    ∃ r, probe b x y dx dy = some r := by
  have hg : InGrid (x + dx) (y + dy) := by
    unfold InGrid
    omega
  obtain ⟨c1, h1⟩ := read_eq_some_of_inGrid b hg
  unfold probe
  rw [h1]
  simp only [Option.some_bind]
  by_cases hc : c1 = FILLED_HOLE
  · rw [if_pos hc]
    subst hc
    have hin := inside_of_isHole hb h1 isHole_FILLED
    have hg2 : InGrid (x + dx + dx) (y + dy + dy) := by
      unfold InGrid
      omega
    obtain ⟨c2, h2⟩ := read_eq_some_of_inGrid b hg2
    rw [h2]
    exact ⟨_, rfl⟩
  · rw [if_neg hc]
    exact ⟨_, rfl⟩

theorem tryDir_isSome {b : Board} (hb : MarginOff b) {x y : Int} (dx dy : Int)
    (hx : 1 ≤ x ∧ x ≤ 7) (hy : 1 ≤ y ∧ y ≤ 7)
    (hd : (dx = 1 ∧ dy = 0) ∨ (dx = -1 ∧ dy = 0) ∨ (dx = 0 ∧ dy = 1) ∨ (dx = 0 ∧ dy = -1))
    (s : Scan) : ∃ s1, tryDir b x y dx dy s = some s1 := by
  obtain ⟨r, hr⟩ := probe_isSome hb dx dy hx hy hd
  unfold tryDir
  rw [hr]
  exact ⟨_, rfl⟩

theorem scanCell_isSome {b : Board} (hb : MarginOff b) {x y : Int}
    (hx : 1 ≤ x ∧ x ≤ 7) (hy : 1 ≤ y ∧ y ≤ 7) (s : Scan) :
    ∃ s1, scanCell b x y s = some s1 := by
  have hg : InGrid x y := by
    unfold InGrid
    omega
  obtain ⟨c, hc⟩ := read_eq_some_of_inGrid b hg
  unfold scanCell
  rw [hc]
  simp only [Option.some_bind]
  by_cases hf : c = FILLED_HOLE
  · rw [if_pos hf]
    obtain ⟨t1, h1⟩ := tryDir_isSome hb 1 0 hx hy (by omega)
      { s with num_pegs := s.num_pegs + 1 }
    obtain ⟨t2, h2⟩ := tryDir_isSome hb (-1) 0 hx hy (by omega) t1
    obtain ⟨t3, h3⟩ := tryDir_isSome hb 0 1 hx hy (by omega) t2
    obtain ⟨t4, h4⟩ := tryDir_isSome hb 0 (-1) hx hy (by omega) t3
    rw [h1, Option.some_bind, h2, Option.some_bind, h3, Option.some_bind, h4]
    exact ⟨_, rfl⟩
  · rw [if_neg hf]
    exact ⟨_, rfl⟩

theorem scanRow_isSome {b : Board} (hb : MarginOff b) {x : Int} (hx : 1 ≤ x ∧ x ≤ 7)
    (ys : List Int) (hys : ∀ y ∈ ys, 1 ≤ y ∧ y ≤ 7) (s : Scan) :
    ∃ s1, scanRow b x ys s = some s1 := by
  induction ys generalizing s with
  | nil => exact ⟨s, rfl⟩
  | cons y ys ih =>
    obtain ⟨t, ht⟩ := scanCell_isSome hb hx (hys y (List.mem_cons_self _ _)) s
    obtain ⟨t1, ht1⟩ := ih (fun z hz => hys z (List.mem_cons_of_mem _ hz)) t
    refine ⟨t1, ?_⟩
    unfold scanRow
    rw [ht, Option.some_bind, ht1]

theorem scanRows_isSome {b : Board} (hb : MarginOff b)
    (xs : List Int) (hxs : ∀ x ∈ xs, 1 ≤ x ∧ x ≤ 7) (s : Scan) :
    ∃ s1, scanRows b xs s = some s1 := by
  induction xs generalizing s with
  | nil => exact ⟨s, rfl⟩
  | cons x xs ih =>
    obtain ⟨t, ht⟩ := scanRow_isSome hb (hxs x (List.mem_cons_self _ _)) idx17
      (fun y hy => mem_idx17.mp hy) s
    obtain ⟨t1, ht1⟩ := ih (fun z hz => hxs z (List.mem_cons_of_mem _ hz)) t
    refine ⟨t1, ?_⟩
    unfold scanRows
    rw [ht, Option.some_bind, ht1]

/-- On a board whose margin is off-board the scan stays inside the array. -/
theorem enumerate_isSome {b : Board} (hb : MarginOff b) : ∃ e, enumerate b = some e :=
  scanRows_isSome hb idx17 (fun _ hx => mem_idx17.mp hx) _


/-! ## Executing a move -/

theorem applyMove_isSome (b : Board) {m : Move} (h0 : InGrid m.x m.y)
    (h1 : InGrid (m.x + m.dx) (m.y + m.dy))
    (h2 : InGrid (m.x + m.dx + m.dx) (m.y + m.dy + m.dy)) :
    ∃ b1, applyMove b m = some b1 := by
  obtain ⟨c1, e1⟩ := write_eq_some_of_inGrid b EMPTY_HOLE h1
  obtain ⟨c2, e2⟩ := write_eq_some_of_inGrid c1 EMPTY_HOLE h0
  obtain ⟨c3, e3⟩ := write_eq_some_of_inGrid c2 FILLED_HOLE h2
  refine ⟨c3, ?_⟩
  unfold applyMove
  rw [e1, Option.some_bind, e2, Option.some_bind, e3]

/-- The cells of the board after a move, in terms of the board before it: the
last of the three writes to a cell decides. -/
theorem read_applyMove {b b1 : Board} {m : Move} (h : applyMove b m = some b1)
    (x y : Int) :
    b1.read x y =
      if x = m.x + m.dx + m.dx ∧ y = m.y + m.dy + m.dy then some FILLED_HOLE
      else if x = m.x ∧ y = m.y then some EMPTY_HOLE
      else if x = m.x + m.dx ∧ y = m.y + m.dy then some EMPTY_HOLE
      else b.read x y := by
  unfold applyMove at h
  obtain ⟨c1, e1, h⟩ := Option.bind_eq_some.mp h
  obtain ⟨c2, e2, e3⟩ := Option.bind_eq_some.mp h
  rw [read_write e3, read_write e2, read_write e1]

theorem inGrid_of_applyMove {b b1 : Board} {m : Move} (h : applyMove b m = some b1) :
    InGrid m.x m.y ∧ InGrid (m.x + m.dx) (m.y + m.dy) ∧
      InGrid (m.x + m.dx + m.dx) (m.y + m.dy + m.dy) := by
  unfold applyMove at h
  obtain ⟨c1, e1, h⟩ := Option.bind_eq_some.mp h
  obtain ⟨c2, e2, e3⟩ := Option.bind_eq_some.mp h
  exact ⟨inGrid_of_write e2, inGrid_of_write e1, inGrid_of_write e3⟩

theorem applyMove_isSome_of_jump {b : Board} {m : Move} (hj : Jump b m) :
    ∃ b1, applyMove b m = some b1 :=
  applyMove_isSome b (inGrid_of_read hj.1) (inGrid_of_read hj.2.1) (inGrid_of_read hj.2.2)

theorem dir_ne_zero_of_unitDir {m : Move} (h : UnitDir m) : m.dx ≠ 0 ∨ m.dy ≠ 0 := by
  unfold UnitDir at h
  omega

/-! ## Counting cells -/

theorem countCells_cons (v : Nat) (p : Int × Int) (cells : List (Int × Int)) (b : Board) :
    countCells v (p :: cells) b =
      countCells v cells b + (if b.read p.1 p.2 = some v then 1 else 0) := by
  unfold countCells
  rw [List.countP_cons]
  simp

/-- The effect of one write on the number of cells of a duplicate-free list
that hold `v`. -/
theorem countCells_write {b b1 : Board} {x y : Int} {w : Nat}
    (h : b.write x y w = some b1) (v : Nat) (cells : List (Int × Int)) (hn : cells.Nodup) :
    countCells v cells b1 + (if (x, y) ∈ cells ∧ b.read x y = some v then 1 else 0) =
      countCells v cells b + (if (x, y) ∈ cells ∧ w = v then 1 else 0) := by
  induction cells with
  | nil => simp [countCells]
  | cons p cells ih =>
    obtain ⟨hp, hn1⟩ := List.nodup_cons.mp hn
    have ih1 := ih hn1
    rw [countCells_cons, countCells_cons]
    by_cases hpe : p = (x, y)
    · subst hpe
      have hnot : ¬ ((x, y) ∈ cells ∧ b.read x y = some v) := fun hh => hp hh.1
      have hnot1 : ¬ ((x, y) ∈ cells ∧ w = v) := fun hh => hp hh.1
      rw [if_neg hnot, if_neg hnot1] at ih1
      simp only [read_write_same h, List.mem_cons, true_or, true_and, Option.some.injEq]
      omega
    · have hne : ¬ (p.1 = x ∧ p.2 = y) := by
        rintro ⟨h1, h2⟩
        exact hpe (Prod.ext h1 h2)
      have hmem : ∀ q : Prop, ((x, y) ∈ p :: cells ∧ q) ↔ ((x, y) ∈ cells ∧ q) := by
        intro q
        rw [List.mem_cons]
        constructor
        · rintro ⟨h1 | h1, h2⟩
          · exact absurd h1.symm hpe
          · exact ⟨h1, h2⟩
        · rintro ⟨h1, h2⟩
          exact ⟨Or.inr h1, h2⟩
      rw [read_write_other h hne]
      simp only [hmem]
      omega

theorem mem_idx08 {x : Int} : x ∈ idx08 ↔ 0 ≤ x ∧ x < 9 := by
  simp only [idx08, List.mem_cons, List.mem_singleton, List.not_mem_nil, or_false]
  omega

theorem mem_grid {x y : Int} : (x, y) ∈ grid ↔ InGrid x y := by
  simp only [grid, List.mem_flatMap, List.mem_map, Prod.mk.injEq, mem_idx08, InGrid]
  constructor
  · rintro ⟨a, ha, c, hc, rfl, rfl⟩
    exact ⟨ha.1, ha.2, hc.1, hc.2⟩
  · rintro ⟨h1, h2, h3, h4⟩
    exact ⟨x, ⟨h1, h2⟩, y, ⟨h3, h4⟩, rfl, rfl⟩

theorem mem_interior {x y : Int} : (x, y) ∈ interior ↔ (1 ≤ x ∧ x ≤ 7) ∧ (1 ≤ y ∧ y ≤ 7) := by
  simp only [interior, List.mem_flatMap, List.mem_map, Prod.mk.injEq, mem_idx17]
  constructor
  · rintro ⟨a, ha, c, hc, rfl, rfl⟩
    exact ⟨ha, hc⟩
  · rintro ⟨h1, h2⟩
    exact ⟨x, h1, y, h2, rfl, rfl⟩

set_option maxRecDepth 100000 in
theorem grid_nodup : grid.Nodup := by decide

set_option maxRecDepth 100000 in
theorem interior_nodup : interior.Nodup := by decide

/-- A jump in a nonzero direction removes exactly one filled cell from every
duplicate-free list of cells that contains its three cells. -/
theorem countCells_applyMove {b b1 : Board} {m : Move} (hj : Jump b m)
    (hd : m.dx ≠ 0 ∨ m.dy ≠ 0) (h : applyMove b m = some b1)
    (cells : List (Int × Int)) (hn : cells.Nodup)
    (h0 : (m.x, m.y) ∈ cells) (h1 : (m.x + m.dx, m.y + m.dy) ∈ cells)
    (h2 : (m.x + m.dx + m.dx, m.y + m.dy + m.dy) ∈ cells) :
    countCells FILLED_HOLE cells b1 + 1 = countCells FILLED_HOLE cells b := by
  obtain ⟨j0, j1, j2⟩ := hj
  unfold applyMove at h
  obtain ⟨c1, e1, h⟩ := Option.bind_eq_some.mp h
  obtain ⟨c2, e2, e3⟩ := Option.bind_eq_some.mp h
  have w1 := countCells_write e1 FILLED_HOLE cells hn
  have w2 := countCells_write e2 FILLED_HOLE cells hn
  have w3 := countCells_write e3 FILLED_HOLE cells hn
  have r1 : c1.read m.x m.y = some FILLED_HOLE := by
    rw [read_write_other e1 (by omega)]
    exact j0
  have r2 : c2.read (m.x + m.dx + m.dx) (m.y + m.dy + m.dy) = some EMPTY_HOLE := by
    rw [read_write_other e2 (by omega), read_write_other e1 (by omega)]
    exact j2
  have ne1 : ¬ (EMPTY_HOLE = FILLED_HOLE) := by decide
  have ne2 : ¬ (some EMPTY_HOLE = some FILLED_HOLE) := by decide
  rw [if_pos ⟨h1, j1⟩, if_neg (fun hh => ne1 hh.2)] at w1
  rw [if_pos ⟨h0, r1⟩, if_neg (fun hh => ne1 hh.2)] at w2
  rw [r2, if_neg (fun hh => ne2 hh.2), if_pos ⟨h2, rfl⟩] at w3
  omega


/-! ## The initial board -/

theorem initBoardOpt_eq : initBoardOpt = some initBoard := rfl

theorem initBoard_marginOff : MarginOff initBoard := by decide

theorem initBoard_crossHoles : CrossHoles initBoard := by decide

theorem initBoard_cells (i j : Fin 9) :
    initBoard i j =
      if InCross i j then (if i.val = 4 ∧ j.val = 4 then EMPTY_HOLE else FILLED_HOLE)
      else 0 := by
  revert i j
  decide

theorem initBoard_pegCount : pegCount initBoard = 32 := by decide

theorem initBoard_numPegs : numPegs initBoard = 32 := by decide

theorem initBoard_emptyCount : countCells EMPTY_HOLE grid initBoard = 1 := by decide

theorem crossSize_eq : crossSize = 33 := by decide

/-! ## Invariants of play -/

/-- A jump turns holes into holes and touches no other cell. -/
theorem isHole_applyMove {b b1 : Board} {m : Move} (hj : Jump b m)
    (h : applyMove b m = some b1) (i j : Fin 9) :
    isHole (b1 i j) = isHole (b i j) := by
  obtain ⟨j0, j1, j2⟩ := hj
  have hr := read_applyMove h (i.val : Int) (j.val : Int)
  rw [read_fin] at hr
  by_cases c2 : (i.val : Int) = m.x + m.dx + m.dx ∧ (j.val : Int) = m.y + m.dy + m.dy
  · rw [if_pos c2] at hr
    rw [← c2.1, ← c2.2, read_fin] at j2
    rw [Option.some.inj hr, Option.some.inj j2]
    decide
  · rw [if_neg c2] at hr
    by_cases c0 : (i.val : Int) = m.x ∧ (j.val : Int) = m.y
    · rw [if_pos c0] at hr
      rw [← c0.1, ← c0.2, read_fin] at j0
      rw [Option.some.inj hr, Option.some.inj j0]
      decide
    · rw [if_neg c0] at hr
      by_cases c1 : (i.val : Int) = m.x + m.dx ∧ (j.val : Int) = m.y + m.dy
      · rw [if_pos c1] at hr
        rw [← c1.1, ← c1.2, read_fin] at j1
        rw [Option.some.inj hr, Option.some.inj j1]
        decide
      · rw [if_neg c1, read_fin] at hr
        rw [Option.some.inj hr]

theorem marginOff_applyMove {b b1 : Board} {m : Move} (hj : Jump b m)
    (h : applyMove b m = some b1) (hb : MarginOff b) : MarginOff b1 := by
  intro i j hm
  have := hb i j hm
  unfold offBoard at this ⊢
  rw [isHole_applyMove hj h]
  exact this

theorem crossHoles_applyMove {b b1 : Board} {m : Move} (hj : Jump b m)
    (h : applyMove b m = some b1) (hb : CrossHoles b) : CrossHoles b1 := by
  intro i j
  rw [isHole_applyMove hj h]
  exact hb i j

theorem reachable_inv {b : Board} (hb : Reachable b) : CrossHoles b ∧ MarginOff b := by
  induction hb with
  | init => exact ⟨initBoard_crossHoles, initBoard_marginOff⟩
  | step _ he hm ha ih =>
    have hl := (enumerate_mem_iff he _).mp hm
    exact ⟨crossHoles_applyMove hl.2.2 ha ih.1, marginOff_applyMove hl.2.2 ha ih.2⟩

/-- On a board whose margin is off-board, a legal move takes exactly one peg
out of the interior. -/
theorem numPegs_applyMove {b b1 : Board} {m : Move} (hb : MarginOff b) (hl : Legal b m)
    (h : applyMove b m = some b1) : numPegs b1 + 1 = numPegs b := by
  obtain ⟨ho, hd, hj⟩ := hl
  have i1 := inside_of_isHole hb hj.2.1 isHole_FILLED
  have i2 := inside_of_isHole hb hj.2.2 isHole_EMPTY
  unfold OriginInside at ho
  exact countCells_applyMove hj (dir_ne_zero_of_unitDir hd) h interior interior_nodup
    (mem_interior.mpr ⟨⟨ho.1, ho.2.1⟩, ⟨ho.2.2.1, ho.2.2.2⟩⟩)
    (mem_interior.mpr ⟨⟨i1.1, i1.2.1⟩, ⟨i1.2.2.1, i1.2.2.2⟩⟩)
    (mem_interior.mpr ⟨⟨i2.1, i2.2.1⟩, ⟨i2.2.2.1, i2.2.2.2⟩⟩)

/-- A legal move takes exactly one peg off the board. -/
theorem pegCount_applyMove {b b1 : Board} {m : Move} (hl : Legal b m)
    (h : applyMove b m = some b1) : pegCount b1 + 1 = pegCount b := by
  obtain ⟨_, hd, hj⟩ := hl
  exact countCells_applyMove hj (dir_ne_zero_of_unitDir hd) h grid grid_nodup
    (mem_grid.mpr (inGrid_of_read hj.1)) (mem_grid.mpr (inGrid_of_read hj.2.1))
    (mem_grid.mpr (inGrid_of_read hj.2.2))

theorem countCells_pos {b : Board} {v : Nat} {cells : List (Int × Int)} {x y : Int}
    (hm : (x, y) ∈ cells) (hr : b.read x y = some v) : 0 < countCells v cells b := by
  unfold countCells
  rw [List.countP_pos_iff]
  exact ⟨(x, y), hm, by simp [hr]⟩

/-- After a legal move on a board whose margin is off-board there is a peg
in the interior: the one that has just landed. -/
theorem numPegs_pos_applyMove {b b1 : Board} {m : Move} (hb : MarginOff b) (hl : Legal b m)
    (h : applyMove b m = some b1) : 0 < numPegs b1 := by
  have i2 := inside_of_isHole hb hl.2.2.2.2 isHole_EMPTY
  have hr := read_applyMove h (m.x + m.dx + m.dx) (m.y + m.dy + m.dy)
  rw [if_pos ⟨rfl, rfl⟩] at hr
  exact countCells_pos (mem_interior.mpr ⟨⟨i2.1, i2.2.1⟩, ⟨i2.2.2.1, i2.2.2.2⟩⟩) hr


/-! ## Replaying a game record -/

theorem replay_append (b : Board) (ms ns : List Move) :
    replay b (ms ++ ns) = (replay b ms).bind fun b1 => replay b1 ns := by
  induction ms generalizing b with
  | nil => rfl
  | cons m ms ih =>
    simp only [List.cons_append, replay]
    by_cases hl : Legal b m
    · rw [if_pos hl, if_pos hl]
      cases applyMove b m with
      | none => rfl
      | some b1 => exact ih b1
    · rw [if_neg hl, if_neg hl]
      rfl

theorem replay_snoc {b b1 b2 : Board} {ms : List Move} {m : Move}
    (h : replay b ms = some b1) (hl : Legal b1 m) (ha : applyMove b1 m = some b2) :
    replay b (ms ++ [m]) = some b2 := by
  rw [replay_append, h]
  simp only [Option.some_bind, replay]
  rw [if_pos hl, ha]
  rfl

theorem reachable_step {b b1 : Board} {m : Move} (hb : Reachable b) (hl : Legal b m)
    (ha : applyMove b m = some b1) : Reachable b1 := by
  obtain ⟨e, he⟩ := enumerate_isSome (reachable_inv hb).2
  exact Reachable.step hb he ((enumerate_mem_iff he m).mpr hl) ha

/-- A replayed record leads to a reachable board and accounts for the pegs
that are gone. -/
theorem replay_reachable {b b1 : Board} {ms : List Move} (hb : Reachable b)
    (h : replay b ms = some b1) : Reachable b1 ∧ numPegs b1 + ms.length = numPegs b := by
  induction ms generalizing b with
  | nil =>
    simp only [replay] at h
    cases h
    exact ⟨hb, rfl⟩
  | cons m ms ih =>
    simp only [replay] at h
    by_cases hl : Legal b m
    · rw [if_pos hl] at h
      obtain ⟨c, hc, h⟩ := Option.bind_eq_some.mp h
      obtain ⟨r, hn⟩ := ih (reachable_step hb hl hc) h
      have := numPegs_applyMove (reachable_inv hb).2 hl hc
      refine ⟨r, ?_⟩
      rw [List.length_cons]
      omega
    · rw [if_neg hl] at h
      cases h

theorem reachable_numPegs {b : Board} (hb : Reachable b) :
    1 ≤ numPegs b ∧ numPegs b ≤ 32 := by
  induction hb with
  | init => rw [initBoard_numPegs]; omega
  | step hb0 he hm ha ih =>
    have hl := (enumerate_mem_iff he _).mp hm
    have h1 := numPegs_applyMove (reachable_inv hb0).2 hl ha
    have h2 := numPegs_pos_applyMove (reachable_inv hb0).2 hl ha
    omega

/-! ## The game loop -/

theorem choose_lt {draw : Nat → Nat → Option Nat} {k n : Nat} {c : Nat × Nat}
    (hn : 0 < n) (h : choose draw k n = some c) : c.2 < n := by
  unfold choose at h
  by_cases h1 : 1 < n
  · rw [if_pos h1] at h
    obtain ⟨k1, _, hk⟩ := Option.map_eq_some'.mp h
    subst hk
    exact Nat.mod_lt _ hn
  · rw [if_neg h1] at h
    cases h
    exact hn

theorem choose_isSome {draw : Nat → Nat → Option Nat}
    (hd : ∀ k n, 1 < n → ∃ k1, draw k n = some k1) (k n : Nat) :
    ∃ c, choose draw k n = some c := by
  unfold choose
  by_cases h1 : 1 < n
  · rw [if_pos h1]
    obtain ⟨k1, hk⟩ := hd k n h1
    rw [hk]
    exact ⟨_, rfl⟩
  · rw [if_neg h1]
    exact ⟨_, rfl⟩

/-- The loop keeps the record in step with the board: when it stops, the
record replays to the final board, on which the scan found no move and
counted the reported pegs. -/
theorem playLoop_replay {draw : Nat → Nat → Option Nat} (fuel : Nat) {s : GameState}
    {out : Outcome} (hs : replay initBoard s.game = some s.board)
    (h : playLoop draw fuel s = some out) :
    replay initBoard out.game = some out.board ∧
    enumerate out.board = some ⟨[], out.num_pegs⟩ := by
  induction fuel generalizing s with
  | zero => cases h
  | succ fuel ih =>
    unfold playLoop at h
    obtain ⟨e, he, h⟩ := Option.bind_eq_some.mp h
    by_cases h0 : e.moves.length = 0
    · rw [if_pos h0] at h
      cases h
      refine ⟨hs, ?_⟩
      rw [he]
      obtain ⟨ms, n⟩ := e
      simp only at h0
      rw [List.length_eq_zero] at h0
      subst h0
      rfl
    · rw [if_neg h0] at h
      obtain ⟨c, _, h⟩ := Option.bind_eq_some.mp h
      obtain ⟨m, hm, h⟩ := Option.bind_eq_some.mp h
      obtain ⟨b1, hb1, h⟩ := Option.bind_eq_some.mp h
      have hmem : m ∈ e.moves := List.get?_mem hm
      have hl := (enumerate_mem_iff he m).mp hmem
      exact ih (s := ⟨c.1, b1, s.game ++ [m]⟩) (replay_snoc hs hl hb1) h

/-- With a redraw loop that always comes back, the game loop stops when it
is given at least as many iterations as there are pegs. -/
theorem playLoop_isSome {draw : Nat → Nat → Option Nat}
    (hd : ∀ k n, 1 < n → ∃ k1, draw k n = some k1) (fuel : Nat) {s : GameState}
    (hr : Reachable s.board) (hf : numPegs s.board ≤ fuel) :
    ∃ out, playLoop draw fuel s = some out := by
  induction fuel generalizing s with
  | zero =>
    have := (reachable_numPegs hr).1
    omega
  | succ fuel ih =>
    obtain ⟨e, he⟩ := enumerate_isSome (reachable_inv hr).2
    unfold playLoop
    rw [he, Option.some_bind]
    by_cases h0 : e.moves.length = 0
    · rw [if_pos h0]
      exact ⟨_, rfl⟩
    · rw [if_neg h0]
      obtain ⟨c, hc⟩ := choose_isSome hd s.kernel e.moves.length
      have hlt := choose_lt (Nat.pos_of_ne_zero h0) hc
      have hget : e.moves.get? c.2 = some (e.moves.get ⟨c.2, hlt⟩) := List.get?_eq_get hlt
      have hmem : e.moves.get ⟨c.2, hlt⟩ ∈ e.moves := List.get_mem _ _ _
      have hl := (enumerate_mem_iff he _).mp hmem
      obtain ⟨b1, hb1⟩ := applyMove_isSome_of_jump hl.2.2
      rw [hc, Option.some_bind, hget, Option.some_bind, hb1, Option.some_bind]
      have h1 := numPegs_applyMove (reachable_inv hr).2 hl hb1
      exact ih (s := ⟨c.1, b1, s.game ++ [e.moves.get ⟨c.2, hlt⟩]⟩)
        (reachable_step hr hl hb1) (by show numPegs b1 ≤ fuel; omega)

theorem replay_nil_initBoard : replay initBoard [] = some initBoard := rfl

/-- Every finished game: the record replays to the final board, which is
reachable and terminal, and record length and peg count add up to 32. -/
theorem playGame_eq_some {draw : Nat → Nat → Option Nat} {fuel k : Nat} {out : Outcome}
    (h : playGame draw fuel k = some out) :
    replay initBoard out.game = some out.board ∧
    enumerate out.board = some ⟨[], out.num_pegs⟩ ∧
    Reachable out.board ∧ out.num_pegs = numPegs out.board ∧
    out.num_pegs + out.game.length = 32 := by
  unfold playGame at h
  rw [initBoardOpt_eq, Option.some_bind] at h
  obtain ⟨h1, h2⟩ := playLoop_replay fuel (s := ⟨k, initBoard, []⟩) replay_nil_initBoard h
  obtain ⟨h3, h4⟩ := replay_reachable Reachable.init h1
  have h5 := (enumerate_eq_some h2).2
  simp only at h5
  refine ⟨h1, h2, h3, ?_, ?_⟩
  · exact h5
  · rw [h5]
    rw [initBoard_numPegs] at h4
    exact h4

theorem playGame_isSome {draw : Nat → Nat → Option Nat}
    (hd : ∀ k n, 1 < n → ∃ k1, draw k n = some k1) (k : Nat) :
    ∃ out, playGame draw 32 k = some out := by
  unfold playGame
  rw [initBoardOpt_eq, Option.some_bind]
  exact playLoop_isSome hd 32 (s := ⟨k, initBoard, []⟩) Reachable.init
    (by show numPegs initBoard ≤ 32; rw [initBoard_numPegs])

theorem no_legal_of_enumerate_nil {b : Board} {n : Nat}
    (h : enumerate b = some ⟨[], n⟩) (m : Move) : ¬ Legal b m := by
  intro hl
  have := (enumerate_mem_iff h m).mpr hl
  simp at this


/-! ## The reduction of the random byte -/

theorem count_congr_lt {p q : Nat → Prop} [DecidablePred p] [DecidablePred q] (m : Nat)
    (h : ∀ b < m, p b ↔ q b) : Nat.count p m = Nat.count q m := by
  induction m with
  | zero => simp
  | succ m ih =>
    rw [Nat.count_succ, Nat.count_succ, ih (fun b hb => h b (Nat.lt_succ_of_lt hb))]
    have := h m (Nat.lt_succ_self m)
    by_cases hp : p m
    · rw [if_pos hp, if_pos (this.mp hp)]
    · rw [if_neg hp, if_neg (fun hq => hp (this.mpr hq))]

theorem count_eq_index (i m : Nat) : Nat.count (fun k => k = i) m = if i < m then 1 else 0 := by
  induction m with
  | zero => simp
  | succ m ih =>
    rw [Nat.count_succ, ih]
    by_cases h1 : i < m
    · have h2 : ¬ (m = i) := by omega
      have h3 : i < m + 1 := by omega
      rw [if_pos h1, if_neg h2, if_pos h3]
    · by_cases h2 : m = i
      · have h3 : i < m + 1 := by omega
        rw [if_neg h1, if_pos h2, if_pos h3]
      · have h3 : ¬ (i < m + 1) := by omega
        rw [if_neg h1, if_neg h2, if_neg h3]

/-- Among the first `q * n` naturals, exactly `q` leave the remainder `i`. -/
theorem count_mod_eq (n i : Nat) (hi : i < n) (q : Nat) :
    Nat.count (fun b => b % n = i) (q * n) = q := by
  induction q with
  | zero => simp
  | succ q ih =>
    rw [Nat.succ_mul, Nat.count_add, ih]
    have h1 : Nat.count (fun k => (q * n + k) % n = i) n = Nat.count (fun k => k = i) n := by
      apply count_congr_lt
      intro b hb
      rw [Nat.mul_add_mod_of_lt hb]
    rw [h1, count_eq_index, if_pos hi]

theorem rejectedByte_eq_false {n b : Nat} : rejectedByte n b = false ↔ b < 256 / n * n := by
  unfold rejectedByte
  simp

theorem hits_eq (n i : Nat) (hi : i < n) : hits n i = 256 / n := by
  have ht : 256 / n * n ≤ 256 := Nat.div_mul_le_self 256 n
  have hs : 256 = 256 / n * n + (256 - 256 / n * n) := by omega
  unfold hits
  conv_lhs => rw [hs]
  rw [Nat.count_add]
  have h1 : Nat.count (fun b => rejectedByte n b = false ∧ pickIndex n b = i) (256 / n * n) =
      Nat.count (fun b => b % n = i) (256 / n * n) := by
    apply count_congr_lt
    intro b hb
    rw [rejectedByte_eq_false]
    unfold pickIndex
    exact ⟨fun h => h.2, fun h => ⟨hb, h⟩⟩
  have h2 : Nat.count (fun k => rejectedByte n (256 / n * n + k) = false ∧
      pickIndex n (256 / n * n + k) = i) (256 - 256 / n * n) = 0 := by
    rw [Nat.count_iff_forall_not]
    intro k _ hk
    have := rejectedByte_eq_false.mp hk.1
    omega
  rw [h1, h2, count_mod_eq n i hi]
  rfl

theorem acceptedBytes_eq (n : Nat) : acceptedBytes n = 256 / n * n := by
  have ht : 256 / n * n ≤ 256 := Nat.div_mul_le_self 256 n
  have hs : 256 = 256 / n * n + (256 - 256 / n * n) := by omega
  unfold acceptedBytes
  conv_lhs => rw [hs]
  rw [Nat.count_add]
  have h1 : Nat.count (fun b => rejectedByte n b = false) (256 / n * n) = 256 / n * n := by
    rw [Nat.count_iff_forall]
    intro b hb
    exact rejectedByte_eq_false.mpr hb
  have h2 : Nat.count (fun k => rejectedByte n (256 / n * n + k) = false)
      (256 - 256 / n * n) = 0 := by
    rw [Nat.count_iff_forall_not]
    intro k _ hk
    have := rejectedByte_eq_false.mp hk
    omega
  rw [h1, h2]
  rfl
/-! ## The histogram -/

theorem sum_set_add (h : List Nat) (i v w : Nat) (hv : h.get? i = some v) :
    (h.set i w).sum + v = h.sum + w := by
  induction h generalizing i with
  | nil => cases hv
  | cons a t ih =>
    cases i with
    | zero =>
      simp only [List.get?_cons_zero, Option.some.injEq] at hv
      subst hv
      simp only [List.set_cons_zero, List.sum_cons]
      omega
    | succ i =>
      simp only [List.get?_cons_succ] at hv
      have := ih i hv
      simp only [List.set_cons_succ, List.sum_cons]
      omega

theorem get?_le_sum (h : List Nat) (i v : Nat) (hv : h.get? i = some v) : v ≤ h.sum := by
  induction h generalizing i with
  | nil => cases hv
  | cons a t ih =>
    cases i with
    | zero =>
      simp only [List.get?_cons_zero, Option.some.injEq] at hv
      subst hv
      simp only [List.sum_cons]
      omega
    | succ i =>
      simp only [List.get?_cons_succ] at hv
      have := ih i hv
      simp only [List.sum_cons]
      omega

/-- What one pass of the outer loop does to the histogram and the counter:
one entry, the one of the final peg count, goes from `v` to `v + 1` reduced
modulo `2 ^ 32`, all others stay, and the counter advances by one modulo
`2 ^ 32`. -/
theorem driverStep_eq_some {draw : Nat → Nat → Option Nat} {fuel gr : Nat} {d d1 : Driver}
    (h : driverStep draw fuel gr d = some d1) :
    ∃ out v, playGame draw fuel d.kernel = some out ∧
      d.histogram.get? out.num_pegs = some v ∧
      d1.histogram = d.histogram.set out.num_pegs ((v + 1) % 2 ^ 32) ∧
      d1.game_count = (d.game_count + 1) % 2 ^ 32 := by
  unfold driverStep at h
  obtain ⟨out, ho, h⟩ := Option.bind_eq_some.mp h
  obtain ⟨hh, hb, h⟩ := Option.map_eq_some'.mp h
  unfold bump at hb
  obtain ⟨v, hv, hb⟩ := Option.map_eq_some'.mp hb
  subst h
  exact ⟨out, v, ho, hv, hb.symm, rfl⟩

/-- The counter is the number of games modulo `2 ^ 32`; so is the sum of the
histogram, which is the number of games itself until an entry wraps. -/
theorem played_inv {draw : Nat → Nat → Option Nat} {fuel gr k n : Nat} {d : Driver}
    (h : Played draw fuel gr k n d) :
    d.game_count = n % 2 ^ 32 ∧ d.histogram.sum % 2 ^ 32 = n % 2 ^ 32 ∧
    (n < 2 ^ 32 → d.histogram.sum = n) ∧ d.histogram.length = 32 := by
  induction h with
  | start =>
    refine ⟨rfl, ?_, ?_, ?_⟩
    · simp [initDriver]
    · intro _
      simp [initDriver]
    · simp [initDriver]
  | @game n d d1 _ _ hs ih =>
    obtain ⟨i1, i2, i3, i4⟩ := ih
    obtain ⟨out, v, _, hv, hh, hc⟩ := driverStep_eq_some hs
    have hsum := sum_set_add d.histogram out.num_pegs v ((v + 1) % 2 ^ 32) hv
    have hle := get?_le_sum d.histogram out.num_pegs v hv
    rw [← hh] at hsum
    refine ⟨?_, ?_, ?_, ?_⟩
    · rw [hc, i1]
      omega
    · omega
    · intro hn
      have := i3 (by omega)
      have hv1 : (v + 1) % 2 ^ 32 = v + 1 := Nat.mod_eq_of_lt (by omega)
      omega
    · rw [hh, List.length_set]
      exact i4

/-- With a target that fits `unsigned int`, at most that many games are
played. -/
theorem played_le_target {draw : Nat → Nat → Option Nat} {fuel gr k n : Nat} {d : Driver}
    (h : Played draw fuel gr k n d) (h0 : 0 < gr) (h1 : gr < 2 ^ 32) : n ≤ gr := by
  induction h with
  | start => omega
  | @game n d d1 hp hc _ ih =>
    have hcount := (played_inv hp).1
    unfold continues at hc
    rw [if_pos (by omega)] at hc
    have hlt : d.game_count < gr := by
      have := Option.some.inj hc
      exact of_decide_eq_true this
    rw [hcount, Nat.mod_eq_of_lt (by omega)] at hlt
    omega


/-! ## Games always play a move -/

theorem playLoop_game_length {draw : Nat → Nat → Option Nat} (fuel : Nat) {s : GameState}
    {out : Outcome} (h : playLoop draw fuel s = some out) :
    s.game.length ≤ out.game.length := by
  induction fuel generalizing s with
  | zero => cases h
  | succ fuel ih =>
    unfold playLoop at h
    obtain ⟨e, _, h⟩ := Option.bind_eq_some.mp h
    by_cases h0 : e.moves.length = 0
    · rw [if_pos h0] at h
      cases h
      exact Nat.le_refl _
    · rw [if_neg h0] at h
      obtain ⟨c, _, h⟩ := Option.bind_eq_some.mp h
      obtain ⟨m, _, h⟩ := Option.bind_eq_some.mp h
      obtain ⟨b1, _, h⟩ := Option.bind_eq_some.mp h
      have := ih h
      simp only [List.length_append, List.length_singleton] at this
      omega

theorem enumerate_initBoard :
    enumerate initBoard =
      some ⟨[⟨2, 4, 1, 0⟩, ⟨4, 2, 0, 1⟩, ⟨4, 6, 0, -1⟩, ⟨6, 4, -1, 0⟩], 32⟩ := by
  decide

/-- The initial board has moves, so every finished game has played at least
one and ends with at most 31 pegs. -/
theorem playGame_game_pos {draw : Nat → Nat → Option Nat} {fuel k : Nat} {out : Outcome}
    (h : playGame draw fuel k = some out) : 1 ≤ out.game.length ∧ out.num_pegs ≤ 31 := by
  have hsum := (playGame_eq_some h).2.2.2.2
  suffices hpos : 1 ≤ out.game.length by omega
  unfold playGame at h
  rw [initBoardOpt_eq, Option.some_bind] at h
  cases fuel with
  | zero => cases h
  | succ fuel =>
    unfold playLoop at h
    obtain ⟨e, he, h⟩ := Option.bind_eq_some.mp h
    rw [enumerate_initBoard] at he
    cases he
    rw [if_neg (by decide)] at h
    obtain ⟨c, _, h⟩ := Option.bind_eq_some.mp h
    obtain ⟨m, _, h⟩ := Option.bind_eq_some.mp h
    obtain ⟨b1, _, h⟩ := Option.bind_eq_some.mp h
    have := playLoop_game_length fuel h
    simp only [List.length_append, List.length_singleton] at this
    omega

theorem bump_isSome {h : List Nat} {i : Nat} (hi : i < h.length) : ∃ h1, bump h i = some h1 := by
  unfold bump
  rw [List.get?_eq_get hi]
  exact ⟨_, rfl⟩

/-- A pass of the outer loop goes through when its game finishes: the final
peg count indexes the histogram inside its 32 entries. -/
theorem driverStep_isSome {draw : Nat → Nat → Option Nat} {fuel k : Nat} {out : Outcome}
    (gr : Nat) (d : Driver) (hk : d.kernel = k) (hl : d.histogram.length = 32)
    (h : playGame draw fuel k = some out) :
    ∃ d1, driverStep draw fuel gr d = some d1 := by
  have hp := (playGame_game_pos h).2
  obtain ⟨h1, hb⟩ := bump_isSome (h := d.histogram) (i := out.num_pegs) (by omega)
  unfold driverStep
  rw [hk, h, Option.some_bind, hb]
  exact ⟨_, rfl⟩

/-! ## Sample runs -/

/-- The first move available on the initial board: the peg at `(2, 4)` jumps
to the right into the centre. -/
theorem legal_first : Legal initBoard ⟨2, 4, 1, 0⟩ := by decide

set_option maxRecDepth 100000 in
/-- A game played with the program's own generator comes to an end. -/
theorem sample_game : (playGame (redraw 100) 32 (seedKernel 1700000000)).isSome = true := by
  decide

theorem replay_legal_at {b b1 : Board} {ms : List Move} (h : replay b ms = some b1)
    (i : Nat) (hi : i < ms.length) :
    ∃ c, replay b (ms.take i) = some c ∧ Legal c (ms.get ⟨i, hi⟩) := by
  induction ms generalizing b i with
  | nil => simp at hi
  | cons m ms ih =>
    simp only [replay] at h
    by_cases hl : Legal b m
    · rw [if_pos hl] at h
      obtain ⟨c, hc, h⟩ := Option.bind_eq_some.mp h
      cases i with
      | zero => exact ⟨b, rfl, hl⟩
      | succ i =>
        obtain ⟨c1, h1, h2⟩ := ih h i (by simpa using hi)
        refine ⟨c1, ?_, h2⟩
        simp only [List.take_succ_cons, replay]
        rw [if_pos hl, hc]
        exact h1
    · rw [if_neg hl] at h
      cases h

/-! ## The claims -/

/-- C1: on every board reachable from the initial position by the engine's
own moves, the enumerator returns a list that contains only legal moves and
contains every legal move (origin in `1..7 x 1..7`, unit direction) exactly
once. -/
theorem C1_enumerator_exact (b : Board) (hb : Reachable b) :
    ∃ e, enumerate b = some e ∧ (∀ m ∈ e.moves, Legal b m) ∧
      (∀ m, Legal b m → e.moves.count m = 1) := by
  obtain ⟨e, he⟩ := enumerate_isSome (reachable_inv hb).2
  exact ⟨e, he, fun m hm => (enumerate_mem_iff he m).mp hm, fun m hm => enumerate_count he hm⟩

theorem C1_enumerator_exact_witness :
    ∃ e, enumerate initBoard = some e ∧ (∀ m ∈ e.moves, Legal initBoard m) ∧
      (∀ m, Legal initBoard m → e.moves.count m = 1) :=
  C1_enumerator_exact initBoard Reachable.init

/-- C2: for every finished game, whatever the redraw loop yields, the recorded
history replays from the initial board with every move legal where it is
played, and ends on the game's final board, on which the scan found no move
and counted the reported pegs. -/
theorem C2_record_replays (draw : Nat → Nat → Option Nat) (fuel k : Nat) (out : Outcome)
    (h : playGame draw fuel k = some out) :
    replay initBoard out.game = some out.board ∧
    (∀ (i : Nat) (hi : i < out.game.length),
      ∃ c, replay initBoard (out.game.take i) = some c ∧ Legal c (out.game.get ⟨i, hi⟩)) ∧
    enumerate out.board = some ⟨[], out.num_pegs⟩ ∧
    (∀ m, ¬ Legal out.board m) := by
  obtain ⟨h1, h2, _⟩ := playGame_eq_some h
  exact ⟨h1, replay_legal_at h1, h2, no_legal_of_enumerate_nil h2⟩

theorem C2_record_replays_witness :
    ∃ out, playGame (redraw 100) 32 (seedKernel 1700000000) = some out ∧
      replay initBoard out.game = some out.board ∧
      (∀ (i : Nat) (hi : i < out.game.length),
        ∃ c, replay initBoard (out.game.take i) = some c ∧ Legal c (out.game.get ⟨i, hi⟩)) ∧
      enumerate out.board = some ⟨[], out.num_pegs⟩ ∧
      (∀ m, ¬ Legal out.board m) := by
  obtain ⟨out, h⟩ := Option.isSome_iff_exists.mp sample_game
  exact ⟨out, h, C2_record_replays _ _ _ out h⟩

/-- C3: for every board and every move legal on it, executing the move
succeeds and yields a board with exactly one filled-hole cell less. -/
theorem C3_one_peg_less (b : Board) (m : Move) (hl : Legal b m) :
    ∃ b1, applyMove b m = some b1 ∧ pegCount b1 + 1 = pegCount b := by
  obtain ⟨b1, h⟩ := applyMove_isSome_of_jump hl.2.2
  exact ⟨b1, h, pegCount_applyMove hl h⟩

theorem C3_one_peg_less_witness :
    Legal initBoard ⟨2, 4, 1, 0⟩ ∧
    ∃ b1, applyMove initBoard ⟨2, 4, 1, 0⟩ = some b1 ∧ pegCount b1 + 1 = pegCount initBoard :=
  ⟨legal_first, C3_one_peg_less initBoard ⟨2, 4, 1, 0⟩ legal_first⟩

/-- C4: a legal move leaves the set of on-board cells as it is (a cell is
off-board after the move iff it was before); hence on every reachable board
the holes are exactly the cells of the cross, of which there are 33, and
every margin cell is off-board. -/
theorem C4_holes_invariant :
    (∀ (b : Board) (m : Move) (b1 : Board), Legal b m → applyMove b m = some b1 →
      ∀ i j : Fin 9, offBoard (b1 i j) = true ↔ offBoard (b i j) = true) ∧
    (∀ b : Board, Reachable b → CrossHoles b ∧ MarginOff b) ∧
    crossSize = 33 := by
  refine ⟨?_, fun b hb => reachable_inv hb, crossSize_eq⟩
  intro b m b1 hl ha i j
  unfold offBoard
  rw [isHole_applyMove hl.2.2 ha]

theorem C4_holes_invariant_witness :
    (∃ b1, applyMove initBoard ⟨2, 4, 1, 0⟩ = some b1 ∧
      ∀ i j : Fin 9, offBoard (b1 i j) = true ↔ offBoard (initBoard i j) = true) ∧
    (CrossHoles initBoard ∧ MarginOff initBoard) := by
  obtain ⟨b1, h⟩ := applyMove_isSome_of_jump legal_first.2.2
  exact ⟨⟨b1, h, C4_holes_invariant.1 initBoard _ b1 legal_first h⟩,
    C4_holes_invariant.2.1 initBoard Reachable.init⟩

/-- C5: executing a move `(x, y, dx, dy)` with a nonzero direction whose three
cells lie on the grid sets `(x, y)` and `(x+dx, y+dy)` to empty-hole, sets
`(x+2dx, y+2dy)` to filled-hole, and leaves every other cell unchanged. -/
theorem C5_applyMove_effect (b : Board) (m : Move) (hd : m.dx ≠ 0 ∨ m.dy ≠ 0)
    (h0 : InGrid m.x m.y) (h1 : InGrid (m.x + m.dx) (m.y + m.dy))
    (h2 : InGrid (m.x + 2 * m.dx) (m.y + 2 * m.dy)) :
    ∃ b1, applyMove b m = some b1 ∧
      b1.read m.x m.y = some EMPTY_HOLE ∧
      b1.read (m.x + m.dx) (m.y + m.dy) = some EMPTY_HOLE ∧
      b1.read (m.x + 2 * m.dx) (m.y + 2 * m.dy) = some FILLED_HOLE ∧
      ∀ x y : Int, ¬ (x = m.x ∧ y = m.y) → ¬ (x = m.x + m.dx ∧ y = m.y + m.dy) →
        ¬ (x = m.x + 2 * m.dx ∧ y = m.y + 2 * m.dy) → b1.read x y = b.read x y := by
  have e1 : m.x + 2 * m.dx = m.x + m.dx + m.dx := by omega
  have e2 : m.y + 2 * m.dy = m.y + m.dy + m.dy := by omega
  rw [e1, e2] at h2 ⊢
  obtain ⟨b1, h⟩ := applyMove_isSome b h0 h1 h2
  refine ⟨b1, h, ?_, ?_, ?_, ?_⟩
  · rw [read_applyMove h, if_neg (by omega), if_pos ⟨rfl, rfl⟩]
  · rw [read_applyMove h, if_neg (by omega), if_neg (by omega), if_pos ⟨rfl, rfl⟩]
  · rw [read_applyMove h, if_pos ⟨rfl, rfl⟩]
  · intro x y n0 n1 n2
    rw [read_applyMove h, if_neg n2, if_neg n0, if_neg n1]

theorem C5_applyMove_effect_witness :
    ∃ b1, applyMove initBoard ⟨2, 4, 1, 0⟩ = some b1 ∧
      b1.read 2 4 = some EMPTY_HOLE ∧ b1.read (2 + 1) (4 + 0) = some EMPTY_HOLE ∧
      b1.read (2 + 2 * 1) (4 + 2 * 0) = some FILLED_HOLE ∧
      ∀ x y : Int, ¬ (x = 2 ∧ y = 4) → ¬ (x = 2 + 1 ∧ y = 4 + 0) →
        ¬ (x = 2 + 2 * 1 ∧ y = 4 + 2 * 0) → b1.read x y = initBoard.read x y :=
  C5_applyMove_effect initBoard ⟨2, 4, 1, 0⟩ (by decide) (by decide) (by decide) (by decide)

/-- C6: every game ends within 31 moves.  No sequence of legal moves from the
initial board is longer than 31; and whatever the redraw loop yields, as
long as it comes back, 32 iterations of the game loop reach a board without
a legal move, with at most 31 moves in the record. -/
theorem C6_game_terminates :
    (∀ (ms : List Move) (b : Board), replay initBoard ms = some b → ms.length ≤ 31) ∧
    (∀ draw : Nat → Nat → Option Nat, (∀ k n, 1 < n → ∃ k1, draw k n = some k1) →
      ∀ k : Nat, ∃ out, playGame draw 32 k = some out ∧ out.game.length ≤ 31 ∧
        replay initBoard out.game = some out.board ∧ ∀ m, ¬ Legal out.board m) := by
  have key : ∀ (ms : List Move) (b : Board), replay initBoard ms = some b →
      ms.length ≤ 31 := by
    intro ms b h
    obtain ⟨hr, hn⟩ := replay_reachable Reachable.init h
    have := (reachable_numPegs hr).1
    rw [initBoard_numPegs] at hn
    omega
  refine ⟨key, ?_⟩
  intro draw hd k
  obtain ⟨out, h⟩ := playGame_isSome hd k
  obtain ⟨h1, h2, _⟩ := playGame_eq_some h
  exact ⟨out, h, key _ _ h1, h1, no_legal_of_enumerate_nil h2⟩

theorem C6_game_terminates_witness :
    (([⟨2, 4, 1, 0⟩] : List Move).length ≤ 31) ∧
    (∃ out, playGame (fun k _ => some k) 32 0 = some out ∧ out.game.length ≤ 31 ∧
        replay initBoard out.game = some out.board ∧ ∀ m, ¬ Legal out.board m) := by
  obtain ⟨b1, h⟩ := applyMove_isSome_of_jump legal_first.2.2
  have hr : replay initBoard [⟨2, 4, 1, 0⟩] = some b1 := by
    simp only [replay]
    rw [if_pos legal_first, h]
    rfl
  exact ⟨C6_game_terminates.1 _ b1 hr,
    C6_game_terminates.2 (fun k _ => some k) (fun k _ _ => ⟨k, rfl⟩) 0⟩

/-- C7: for every finished game, the final peg count, which the scan counted
on the terminal board where it found no move, is at least 1 and at most 32. -/
theorem C7_final_pegs_bounds (draw : Nat → Nat → Option Nat) (fuel k : Nat) (out : Outcome)
    (h : playGame draw fuel k = some out) :
    enumerate out.board = some ⟨[], out.num_pegs⟩ ∧ 1 ≤ out.num_pegs ∧ out.num_pegs ≤ 32 := by
  obtain ⟨_, h2, h3, h4, _⟩ := playGame_eq_some h
  have := reachable_numPegs h3
  rw [← h4] at this
  exact ⟨h2, this.1, this.2⟩

theorem C7_final_pegs_bounds_witness :
    ∃ out, playGame (redraw 100) 32 (seedKernel 1700000000) = some out ∧
      enumerate out.board = some ⟨[], out.num_pegs⟩ ∧ 1 ≤ out.num_pegs ∧
      out.num_pegs ≤ 32 := by
  obtain ⟨out, h⟩ := Option.isSome_iff_exists.mp sample_game
  exact ⟨out, h, C7_final_pegs_bounds _ _ _ out h⟩

/-- C8: the reduction has no modulo bias.  For `2 ≤ n ≤ 32` and `i < n`, exactly
`256 / n` of the byte values `0..255` are accepted and select index `i`, the
same number for every `i`; it is positive, the accepted bytes number `n`
times as many, and so an accepted byte selects `i` with probability `1 / n`. -/
theorem C8_no_modulo_bias (n i : Nat) (h2 : 2 ≤ n) (h32 : n ≤ 32) (hi : i < n) :
    hits n i = 256 / n ∧ 0 < hits n i ∧ acceptedBytes n = n * hits n i ∧
    (hits n i : ℚ) / (acceptedBytes n : ℚ) = 1 / (n : ℚ) := by
  have hh := hits_eq n i hi
  have hpos : 0 < 256 / n := Nat.div_pos (by omega) (by omega)
  have ha : acceptedBytes n = n * hits n i := by
    rw [acceptedBytes_eq, hh, Nat.mul_comm]
  refine ⟨hh, by omega, ha, ?_⟩
  rw [ha, Nat.cast_mul]
  have hn0 : (n : ℚ) ≠ 0 := by
    have : n ≠ 0 := by omega
    exact_mod_cast this
  have hq0 : (hits n i : ℚ) ≠ 0 := by
    have : hits n i ≠ 0 := by omega
    exact_mod_cast this
  field_simp
  ring

theorem C8_no_modulo_bias_witness :
    hits 3 2 = 256 / 3 ∧ 0 < hits 3 2 ∧ acceptedBytes 3 = 3 * hits 3 2 ∧
    (hits 3 2 : ℚ) / (acceptedBytes 3 : ℚ) = 1 / ((3 : Nat) : ℚ) :=
  C8_no_modulo_bias 3 2 (by decide) (by decide) (by decide)

/-- C10: the initialisation succeeds; the initial board has exactly 32
filled-hole cells and exactly one empty-hole cell, the centre `(4, 4)`; its
holes are exactly the cells of the cross, so that no cell of the cross is
off-board; and every margin cell is off-board. -/
theorem C10_initial_board :
    initBoardOpt = some initBoard ∧
    pegCount initBoard = 32 ∧
    countCells EMPTY_HOLE grid initBoard = 1 ∧
    initBoard.read 4 4 = some EMPTY_HOLE ∧
    (∀ i j : Fin 9, isHole (initBoard i j) = true ↔
      (1 ≤ i.val ∧ i.val ≤ 7 ∧ 1 ≤ j.val ∧ j.val ≤ 7) ∧
        ((3 ≤ i.val ∧ i.val ≤ 5) ∨ (3 ≤ j.val ∧ j.val ≤ 5))) ∧
    (∀ i j : Fin 9, InCross i j → offBoard (initBoard i j) = false) ∧
    (∀ i j : Fin 9, i.val = 0 ∨ i.val = 8 ∨ j.val = 0 ∨ j.val = 8 →
      offBoard (initBoard i j) = true) := by
  refine ⟨initBoardOpt_eq, initBoard_pegCount, initBoard_emptyCount, by decide,
    initBoard_crossHoles, ?_, initBoard_marginOff⟩
  intro i j hc
  unfold offBoard
  rw [(initBoard_crossHoles i j).mpr hc]
  rfl


/-! ## The driver loop -/

/-- One pass of the outer loop, field by field. -/
theorem driverStep_spec {draw : Nat → Nat → Option Nat} {fuel gr : Nat} {d d1 : Driver}
    (h : driverStep draw fuel gr d = some d1) :
    ∃ out v, playGame draw fuel d.kernel = some out ∧
      d.histogram.get? out.num_pegs = some v ∧
      d1 = ⟨d.histogram.set out.num_pegs ((v + 1) % 2 ^ 32), (d.game_count + 1) % 2 ^ 32,
        out.kernel, if reportable gr out.num_pegs then d.reported ++ [out] else d.reported⟩ := by
  unfold driverStep at h
  obtain ⟨out, ho, h⟩ := Option.bind_eq_some.mp h
  obtain ⟨hh, hb, h⟩ := Option.map_eq_some'.mp h
  unfold bump at hb
  obtain ⟨v, hv, hb⟩ := Option.map_eq_some'.mp hb
  subst h
  subst hb
  exact ⟨out, v, ho, hv, rfl⟩

/-- When the outer loop stops, it stops in a state of the run in which the
loop condition is false. -/
theorem runLoop_played {draw : Nat → Nat → Option Nat} {fuel gr k : Nat} (n : Nat)
    {j : Nat} {d d1 : Driver} (hp : Played draw fuel gr k j d)
    (h : runLoop draw fuel gr n d = some d1) :
    ∃ j1, Played draw fuel gr k j1 d1 ∧ continues gr d1 = some false := by
  induction n generalizing j d with
  | zero => cases h
  | succ n ih =>
    unfold runLoop at h
    obtain ⟨c, hc, h⟩ := Option.bind_eq_some.mp h
    cases c with
    | true =>
      simp only [if_true] at h
      obtain ⟨d2, hs, h⟩ := Option.bind_eq_some.mp h
      exact ih (Played.game hp hc hs) h
    | false =>
      simp only [Bool.false_eq_true, if_false] at h
      cases h
      exact ⟨j, hp, hc⟩

theorem continues_target {gr : Nat} (h0 : 0 < gr) (d : Driver) :
    continues gr d = some (decide (d.game_count < gr)) := by
  unfold continues
  rw [if_pos (by omega)]

/-- With a target between 1 and `2 ^ 32 - 1`, a run that stops has played
exactly that many games. -/
theorem runLoop_target {draw : Nat → Nat → Option Nat} {fuel gr k n : Nat} {d : Driver}
    (h0 : 0 < gr) (h1 : gr < 2 ^ 32) (h : runLoop draw fuel gr n (initDriver k) = some d) :
    d.game_count = gr ∧ Played draw fuel gr k gr d := by
  obtain ⟨j, hp, hc⟩ := runLoop_played n Played.start h
  have hle := played_le_target hp h0 h1
  have hcount := (played_inv hp).1
  rw [continues_target h0] at hc
  have hnot : ¬ (d.game_count < gr) := of_decide_eq_false (Option.some.inj hc)
  rw [hcount, Nat.mod_eq_of_lt (by omega)] at hnot
  have hj : j = gr := by omega
  subst hj
  refine ⟨?_, hp⟩
  rw [hcount, Nat.mod_eq_of_lt h1]

/-- With a redraw loop that always comes back and a target between 1 and
`2 ^ 32 - 1`, the outer loop stops within as many passes as games are still
to be played, plus the last test. -/
theorem runLoop_isSome {draw : Nat → Nat → Option Nat}
    (hd : ∀ k n, 1 < n → ∃ k1, draw k n = some k1) {gr k : Nat}
    (h0 : 0 < gr) (h1 : gr < 2 ^ 32) (n : Nat) {j : Nat} {d : Driver}
    (hp : Played draw 32 gr k j d) (hn : gr < j + n) :
    ∃ d1, runLoop draw 32 gr n d = some d1 := by
  induction n generalizing j d with
  | zero =>
    have := played_le_target hp h0 h1
    omega
  | succ n ih =>
    have hle := played_le_target hp h0 h1
    have hcount := (played_inv hp).1
    rw [Nat.mod_eq_of_lt (by omega)] at hcount
    unfold runLoop
    rw [continues_target h0, Option.some_bind]
    by_cases hlt : d.game_count < gr
    · rw [decide_eq_true hlt]
      simp only [if_true]
      obtain ⟨out, ho⟩ := playGame_isSome hd d.kernel
      obtain ⟨d2, hs⟩ := driverStep_isSome gr d rfl (played_inv hp).2.2.2 ho
      rw [hs, Option.some_bind]
      have hc : continues gr d = some true := by
        rw [continues_target h0, decide_eq_true hlt]
      exact ih (Played.game hp hc hs) (by omega)
    · rw [decide_eq_false hlt]
      exact ⟨d, rfl⟩

/-- In every state of a run, entry 0 of the histogram is zero and the
histogram has its 32 entries. -/
theorem played_hist_zero {draw : Nat → Nat → Option Nat} {fuel gr k n : Nat} {d : Driver}
    (h : Played draw fuel gr k n d) : d.histogram.get? 0 = some 0 := by
  induction h with
  | start => rfl
  | @game n d d1 _ _ hs ih =>
    obtain ⟨out, v, ho, _, hd1⟩ := driverStep_spec hs
    have hpos := (playGame_eq_some ho).2.2.1
    have hb := reachable_numPegs hpos
    rw [← (playGame_eq_some ho).2.2.2.1] at hb
    subst hd1
    simp only [List.get?_eq_getElem?]
    rw [List.getElem?_set_ne (by omega)]
    simpa using ih

/-- The final report prints every nonzero entry of the histogram of a run. -/
theorem mem_finalReport {draw : Nat → Nat → Option Nat} {fuel gr k n : Nat} {d : Driver}
    (h : Played draw fuel gr k n d) {i v : Nat} (hv : d.histogram.get? i = some v)
    (hne : v ≠ 0) :
    (1 ≤ i ∧ i ≤ 31) ∧ (1 < d.game_count → (i, v) ∈ finalReport d) := by
  have hlen := (played_inv h).2.2.2
  have h0 := played_hist_zero h
  have hi : i < 32 := by
    have := (List.get?_eq_some.mp hv).1
    omega
  have hi0 : i ≠ 0 := by
    rintro rfl
    rw [h0] at hv
    exact hne (Option.some.inj hv).symm
  refine ⟨by omega, ?_⟩
  intro hg
  unfold finalReport
  rw [if_pos hg, List.mem_filterMap]
  refine ⟨i, ?_, ?_⟩
  · rw [List.mem_range']
    exact ⟨i - 1, by omega, by omega⟩
  · rw [hv, Option.some_bind, if_pos hne]

/-- In a run without a target, entry 1 of the histogram counts the reported
games, of which there is at most one, with one peg left. -/
theorem played_win_seeking {draw : Nat → Nat → Option Nat} {fuel k n : Nat} {d : Driver}
    (h : Played draw fuel 0 k n d) :
    d.histogram.get? 1 = some d.reported.length ∧ d.reported.length ≤ 1 ∧
      ∀ o ∈ d.reported, o.num_pegs = 1 := by
  induction h with
  | start => exact ⟨rfl, by simp [initDriver], by simp [initDriver]⟩
  | @game n d d1 _ hc hs ih =>
    obtain ⟨i1, _, _⟩ := ih
    unfold continues at hc
    rw [if_neg (by simp), i1] at hc
    have hlen : d.reported.length = 0 := by simpa using hc
    have hnil : d.reported = [] := List.length_eq_zero.mp hlen
    rw [hlen] at i1
    obtain ⟨out, v, _, hv, hd1⟩ := driverStep_spec hs
    subst hd1
    by_cases hp : out.num_pegs = 1
    · rw [hp] at hv
      rw [i1] at hv
      have hv0 : v = 0 := (Option.some.inj hv).symm
      have hl : 1 < d.histogram.length := (List.get?_eq_some.mp i1).1
      subst hv0
      simp only [hp, reportable, hnil]
      simp [hl, hp]
    · have hr : reportable 0 out.num_pegs = false := by
        simp [reportable, hp]
      simp only [hr, hnil]
      refine ⟨?_, by simp, by simp⟩
      simp only [List.get?_eq_getElem?]
      rw [List.getElem?_set_ne (by omega)]
      simpa using i1

/-- A run without a target stops right after its first game that ends with
one peg: that game is the only one reported, and entry 1 of the histogram
is 1. -/
theorem runLoop_win_seeking {draw : Nat → Nat → Option Nat} {fuel k n : Nat} {d : Driver}
    (h : runLoop draw fuel 0 n (initDriver k) = some d) :
    d.histogram.get? 1 = some 1 ∧
    ∃ j d0 out, Played draw fuel 0 k j d0 ∧ continues 0 d0 = some true ∧
      playGame draw fuel d0.kernel = some out ∧ driverStep draw fuel 0 d0 = some d ∧
      out.num_pegs = 1 ∧ d0.reported = [] ∧ d.reported = [out] := by
  obtain ⟨j1, hp, hc⟩ := runLoop_played n Played.start h
  obtain ⟨w1, w2, _⟩ := played_win_seeking hp
  have hlen : d.reported.length = 1 := by
    unfold continues at hc
    rw [if_neg (by simp), w1] at hc
    have : d.reported.length ≠ 0 := by simpa using hc
    omega
  rw [hlen] at w1
  refine ⟨w1, ?_⟩
  cases hp with
  | start => simp [initDriver] at hlen
  | @game j d0 _ hp0 hc0 hs =>
    obtain ⟨v1, _, _⟩ := played_win_seeking hp0
    have hnil : d0.reported = [] := by
      unfold continues at hc0
      rw [if_neg (by simp), v1] at hc0
      have : d0.reported.length = 0 := by simpa using hc0
      exact List.length_eq_zero.mp this
    obtain ⟨out, v, ho, _, hd1⟩ := driverStep_spec hs
    refine ⟨j, d0, out, hp0, hc0, ho, hs, ?_⟩
    subst hd1
    by_cases hpeg : out.num_pegs = 1
    · refine ⟨hpeg, hnil, ?_⟩
      simp [reportable, hpeg, hnil]
    · have hr : reportable 0 out.num_pegs = false := by
        simp [reportable, hpeg]
      simp [hr, hnil] at hlen

set_option maxRecDepth 100000 in
/-- The scripted game ends with one peg, and the run without a target stops
after it. -/
theorem sample_win : (runLoop (scriptedDraw winningScript) 32 0 2 (initDriver 0)).isSome = true := by
  decide


/-! ## The generator -/

theorem xor_one_eq (x : Nat) :
    (x % 2 = 0 → x ^^^ 1 = x + 1) ∧ (x % 2 = 1 → x ^^^ 1 = x - 1) := by
  have h1 : (x ^^^ 1) / 2 = x / 2 := by
    rw [Nat.xor_div_two]
    simp
  have h2 : (x ^^^ 1) % 2 = (x + 1) % 2 := Nat.xor_mod_two_eq
  omega

theorem nextKernel_eq (k : Nat) : nextKernel k = (15 * k % 2 ^ 64) ^^^ 1 := by
  unfold nextKernel
  rw [Nat.shiftLeft_eq]
  congr 1
  omega

theorem nextKernel_lt (k : Nat) : nextKernel k < 2 ^ 64 := by
  unfold nextKernel
  exact Nat.xor_lt_two_pow (Nat.mod_lt _ (by decide)) (by decide)

theorem prevKernel_lt (c : Nat) : prevKernel c < 2 ^ 64 := by
  unfold prevKernel
  exact Nat.mod_lt _ (by decide)

theorem prevKernel_nextKernel (k : Nat) (hk : k < 2 ^ 64) : prevKernel (nextKernel k) = k := by
  rw [nextKernel_eq]
  unfold prevKernel
  rw [Nat.xor_cancel_right]
  omega

theorem nextKernel_prevKernel (c : Nat) (hc : c < 2 ^ 64) : nextKernel (prevKernel c) = c := by
  have hx : c ^^^ 1 < 2 ^ 64 := Nat.xor_lt_two_pow hc (by decide)
  rw [nextKernel_eq]
  unfold prevKernel
  have : 15 * ((c ^^^ 1) * 0xEEEEEEEEEEEEEEEF % 2 ^ 64) % 2 ^ 64 = c ^^^ 1 := by
    generalize c ^^^ 1 = t at hx
    omega
  rw [this, Nat.xor_cancel_right]

/-- A step of the recurrence on an even and on an odd word. -/
theorem nextKernel_parity (k : Nat) :
    (k % 2 = 0 → nextKernel k = (15 * k + 1) % 2 ^ 64) ∧
    (k % 2 = 1 → nextKernel k = (15 * k + (2 ^ 64 - 1)) % 2 ^ 64) := by
  rw [nextKernel_eq]
  have hx := xor_one_eq (15 * k % 2 ^ 64)
  generalize (15 * k % 2 ^ 64) ^^^ 1 = y at hx ⊢
  constructor
  · intro h
    have := hx.1 (by omega)
    omega
  · intro h
    have := hx.2 (by omega)
    omega

/-- One turn of the redraw loop on an even and on an odd word. -/
theorem step3_parity (k : Nat) :
    (k % 2 = 0 → step3 k = (3375 * k + 211) % 2 ^ 64) ∧
    (k % 2 = 1 → step3 k = (3375 * k + (2 ^ 64 - 211)) % 2 ^ 64) := by
  unfold step3
  have h1 := nextKernel_parity k
  have h2 := nextKernel_parity (nextKernel k)
  have h3 := nextKernel_parity (nextKernel (nextKernel k))
  generalize nextKernel (nextKernel (nextKernel k)) = k3 at h3 ⊢
  generalize nextKernel (nextKernel k) = k2 at h2 h3
  generalize nextKernel k = k1 at h1 h2
  constructor
  · intro h
    have e1 := h1.1 h
    have e2 := h2.2 (by omega)
    have e3 := h3.1 (by omega)
    omega
  · intro h
    have e1 := h1.2 h
    have e2 := h2.1 (by omega)
    have e3 := h3.2 (by omega)
    omega

/-- Two turns of the redraw loop keep the parity of the word and act on it as
an affine map modulo `2 ^ 64`. -/
theorem step3_step3 (k : Nat) :
    (k % 2 = 0 → step3 (step3 k) % 2 = 0 ∧
      step3 (step3 k) = affApply (11390625, 711914) k) ∧
    (k % 2 = 1 → step3 (step3 k) % 2 = 1 ∧
      step3 (step3 k) = affApply (11390625, 2 ^ 64 - 711914) k) := by
  have h1 := step3_parity k
  have h2 := step3_parity (step3 k)
  unfold affApply
  simp only
  generalize step3 (step3 k) = k2 at h2 ⊢
  generalize step3 k = k1 at h1 h2
  constructor
  · intro h
    have e1 := h1.1 h
    have e2 := h2.2 (by omega)
    omega
  · intro h
    have e1 := h1.2 h
    have e2 := h2.1 (by omega)
    omega

theorem affApply_comp (f g : Nat × Nat) (x : Nat) :
    affApply (affComp f g) x = affApply f (affApply g x) := by
  unfold affApply affComp
  simp only
  rw [← ZMod.natCast_eq_natCast_iff']
  push_cast
  simp only [ZMod.natCast_mod]
  push_cast
  ring

/-- Doubling: when `g` keeps the set `S` and acts on it as the affine map of
`f`, its `2 ^ r`-fold iterate acts on `S` as the affine map of `affPow2 f r`. -/
theorem iterate_pow2 (g : Nat → Nat) (S : Nat → Prop) (f : Nat × Nat)
    (hg : ∀ k, S k → S (g k) ∧ g k = affApply f k) (r : Nat) :
    ∀ k, S k → S (g^[2 ^ r] k) ∧ g^[2 ^ r] k = affApply (affPow2 f r) k := by
  induction r with
  | zero =>
    intro k hk
    simpa [affPow2] using hg k hk
  | succ r ih =>
    intro k hk
    obtain ⟨s1, e1⟩ := ih k hk
    obtain ⟨s2, e2⟩ := ih _ s1
    have hpow : 2 ^ (r + 1) = 2 ^ r + 2 ^ r := by
      rw [Nat.pow_succ]
      omega
    rw [hpow, Function.iterate_add_apply]
    refine ⟨s2, ?_⟩
    rw [e2, e1]
    unfold affPow2
    rw [Function.iterate_succ_apply']
    rw [affApply_comp]

set_option maxRecDepth 100000 in
theorem affPow2_even : affPow2 (11390625, 711914) 62 = (1, 2 ^ 63) := by decide

set_option maxRecDepth 100000 in
theorem affPow2_odd : affPow2 (11390625, 2 ^ 64 - 711914) 62 = (1, 2 ^ 63) := by decide

theorem step3_lt (k : Nat) : step3 k < 2 ^ 64 := nextKernel_lt _

/-- After `2 ^ 63` turns of the redraw loop the top bit of the word has
flipped and the other bits are back. -/
theorem step3_flip (k : Nat) :
    step3^[2 ^ 63] k = (k + 2 ^ 63) % 2 ^ 64 := by
  have hpow : 2 ^ 63 = 2 * 2 ^ 62 := by decide
  rw [hpow, Function.iterate_mul]
  have h2 : ∀ x, step3^[2] x = step3 (step3 x) := fun _ => rfl
  rcases Nat.mod_two_eq_zero_or_one k with hpar | hpar
  · have key := iterate_pow2 (step3^[2]) (fun x => x % 2 = 0) (11390625, 711914)
      (fun x hx => by rw [h2]; exact (step3_step3 x).1 hx) 62 k hpar
    rw [key.2, affPow2_even]
    unfold affApply
    simp only
    omega
  · have key := iterate_pow2 (step3^[2]) (fun x => x % 2 = 1) (11390625, 2 ^ 64 - 711914)
      (fun x hx => by rw [h2]; exact (step3_step3 x).2 hx) 62 k hpar
    rw [key.2, affPow2_odd]
    unfold affApply
    simp only
    omega

theorem redraw_succ (fuel k n : Nat) :
    redraw (fuel + 1) k n =
      if rejected (step3 k) n then redraw fuel (step3 k) n else some (step3 k) := rfl

/-- The redraw loop stops as soon as some turn yields an accepted word. -/
theorem redraw_of_iterate (n t : Nat) :
    ∀ k, rejected (step3^[t + 1] k) n = false →
      ∃ fuel k1, fuel ≤ t + 1 ∧ redraw fuel k n = some k1 ∧ rejected k1 n = false ∧
        ∃ s, 1 ≤ s ∧ k1 = step3^[s] k := by
  induction t with
  | zero =>
    intro k h
    refine ⟨1, step3 k, Nat.le_refl _, ?_, h, 1, Nat.le_refl _, rfl⟩
    rw [redraw_succ]
    have h1 : rejected (step3 k) n = false := h
    rw [h1]
    rfl
  | succ t ih =>
    intro k h
    by_cases hr : rejected (step3 k) n = true
    · rw [Function.iterate_succ_apply] at h
      obtain ⟨fuel, k1, hf, hd, ha, s, hs, he⟩ := ih (step3 k) h
      refine ⟨fuel + 1, k1, by omega, ?_, ha, s + 1, by omega, ?_⟩
      · rw [redraw_succ, hr]
        exact hd
      · rw [he, Function.iterate_succ_apply]
    · have hr1 : rejected (step3 k) n = false := by
        cases hrej : rejected (step3 k) n with
        | true => exact absurd hrej hr
        | false => rfl
      refine ⟨1, step3 k, by omega, ?_, hr1, 1, Nat.le_refl _, rfl⟩
      rw [redraw_succ, hr1]
      rfl

theorem rejected_eq_false {k n : Nat} : rejected k n = false ↔ topByte k < 256 / n * n := by
  unfold rejected
  exact rejectedByte_eq_false

theorem threshold_ge {n : Nat} (h2 : 2 ≤ n) (h32 : n ≤ 32) : 128 ≤ 256 / n * n := by
  have h1 := Nat.div_add_mod 256 n
  have h3 := Nat.mod_lt 256 (show 0 < n by omega)
  rw [Nat.mul_comm] at h1
  omega

theorem topByte_lt_of_lt {k : Nat} (h : k < 2 ^ 63) : topByte k < 128 := by
  unfold topByte
  rw [Nat.shiftRight_eq_div_pow]
  omega

/-- From every word the redraw loop reaches an accepted word within
`2 ^ 63 + 1` turns. -/
theorem redraw_isSome (k n : Nat) (h2 : 2 ≤ n) (h32 : n ≤ 32) :
    ∃ fuel k1, fuel ≤ 2 ^ 63 + 1 ∧ redraw fuel k n = some k1 ∧ rejected k1 n = false ∧
      ∃ s, 1 ≤ s ∧ k1 = step3^[s] k := by
  have hthr := threshold_ge h2 h32
  by_cases hlow : step3 k < 2 ^ 63
  · have hacc : rejected (step3^[0 + 1] k) n = false := by
      rw [rejected_eq_false]
      have := topByte_lt_of_lt hlow
      show topByte (step3 k) < 256 / n * n
      omega
    obtain ⟨fuel, k1, hf, hd, ha, hs⟩ := redraw_of_iterate n 0 k hacc
    exact ⟨fuel, k1, by omega, hd, ha, hs⟩
  · have hflip := step3_flip (step3 k)
    have hacc : rejected (step3^[2 ^ 63 + 1] k) n = false := by
      rw [rejected_eq_false, Function.iterate_succ_apply, hflip]
      have hlt := step3_lt k
      have : (step3 k + 2 ^ 63) % 2 ^ 64 < 2 ^ 63 := by omega
      have := topByte_lt_of_lt this
      omega
    exact redraw_of_iterate n (2 ^ 63) k hacc

/-! ## The size of the move list -/

set_option maxHeartbeats 4000000 in
/-- A line of seven holes between two off-board cells carries at most four
jumps. -/
theorem lineJumps_long (c : Int → Option Nat)
    (h1 : c 1 = some EMPTY_HOLE ∨ c 1 = some FILLED_HOLE)
    (h2 : c 2 = some EMPTY_HOLE ∨ c 2 = some FILLED_HOLE)
    (h3 : c 3 = some EMPTY_HOLE ∨ c 3 = some FILLED_HOLE)
    (h4 : c 4 = some EMPTY_HOLE ∨ c 4 = some FILLED_HOLE)
    (h5 : c 5 = some EMPTY_HOLE ∨ c 5 = some FILLED_HOLE)
    (h6 : c 6 = some EMPTY_HOLE ∨ c 6 = some FILLED_HOLE)
    (h7 : c 7 = some EMPTY_HOLE ∨ c 7 = some FILLED_HOLE)
    (h0 : c 0 ≠ some EMPTY_HOLE ∧ c 0 ≠ some FILLED_HOLE)
    (h8 : c 8 ≠ some EMPTY_HOLE ∧ c 8 ≠ some FILLED_HOLE) :
    lineJumps c ≤ 4 := by
  have hne := FILLED_ne_EMPTY
  have hne1 := FILLED_ne_EMPTY.symm
  simp only [lineJumps, idx17, List.map_cons, List.map_nil, List.sum_cons, List.sum_nil]
  norm_num only [h0.1, h0.2, h8.1, h8.2, false_and, and_false, if_false]
  rcases h1 with h1 | h1 <;> rcases h2 with h2 | h2 <;> rcases h3 with h3 | h3 <;>
    rcases h4 with h4 | h4 <;> rcases h5 with h5 | h5 <;> rcases h6 with h6 | h6 <;>
    rcases h7 with h7 | h7 <;>
    simp [h1, h2, h3, h4, h5, h6, h7, hne, hne1]

/-- A line of three holes in the middle of six off-board cells carries at
most one jump. -/
theorem lineJumps_short (c : Int → Option Nat)
    (h3 : c 3 = some EMPTY_HOLE ∨ c 3 = some FILLED_HOLE)
    (h4 : c 4 = some EMPTY_HOLE ∨ c 4 = some FILLED_HOLE)
    (h5 : c 5 = some EMPTY_HOLE ∨ c 5 = some FILLED_HOLE)
    (h0 : c 0 ≠ some EMPTY_HOLE ∧ c 0 ≠ some FILLED_HOLE)
    (h1 : c 1 ≠ some EMPTY_HOLE ∧ c 1 ≠ some FILLED_HOLE)
    (h2 : c 2 ≠ some EMPTY_HOLE ∧ c 2 ≠ some FILLED_HOLE)
    (h6 : c 6 ≠ some EMPTY_HOLE ∧ c 6 ≠ some FILLED_HOLE)
    (h7 : c 7 ≠ some EMPTY_HOLE ∧ c 7 ≠ some FILLED_HOLE)
    (h8 : c 8 ≠ some EMPTY_HOLE ∧ c 8 ≠ some FILLED_HOLE) :
    lineJumps c ≤ 1 := by
  have hne := FILLED_ne_EMPTY
  have hne1 := FILLED_ne_EMPTY.symm
  simp only [lineJumps, idx17, List.map_cons, List.map_nil, List.sum_cons, List.sum_nil]
  norm_num only [h0.1, h0.2, h1.1, h1.2, h2.1, h2.2, h6.1, h6.2, h7.1, h7.2, h8.1, h8.2,
    false_and, and_false, if_false]
  rcases h3 with h3 | h3 <;> rcases h4 with h4 | h4 <;> rcases h5 with h5 | h5 <;>
    simp [h3, h4, h5, hne, hne1]

theorem countP_candidatesAt (b : Board) (x y : Int) :
    (candidatesAt x y).countP (fun m => decide (Jump b m)) = rowTerm b x y + colTerm b x y := by
  simp only [candidatesAt, List.countP_cons, List.countP_nil, decide_eq_true_eq, rowTerm,
    colTerm]
  omega

theorem countP_candidates (b : Board) :
    candidates.countP (fun m => decide (Jump b m)) =
      (idx17.map fun x => (idx17.map fun y => rowTerm b x y + colTerm b x y).sum).sum := by
  unfold candidates
  simp only [List.flatMap, List.countP_flatten, List.map_map]
  congr 1
  apply List.map_congr_left
  intro x _
  simp only [Function.comp, List.countP_flatten, List.map_map]
  congr 1
  apply List.map_congr_left
  intro y _
  exact countP_candidatesAt b x y

/-- Summing the terms of the scan cell by cell is summing the rows and the
columns. -/
theorem sum_rows_cols (H V : Int → Int → Nat) :
    (idx17.map fun x => (idx17.map fun y => H x y + V x y).sum).sum =
      (idx17.map fun y => (idx17.map fun x => H x y).sum).sum +
      (idx17.map fun x => (idx17.map fun y => V x y).sum).sum := by
  simp only [idx17, List.map_cons, List.map_nil, List.sum_cons, List.sum_nil]
  omega

theorem rowTerm_sum (b : Board) (y : Int) :
    (idx17.map fun x => rowTerm b x y).sum = lineJumps fun x => b.read x y := by
  unfold lineJumps
  congr 1
  apply List.map_congr_left
  intro x _
  simp only [rowTerm, Jump, add_zero]

theorem colTerm_sum (b : Board) (x : Int) :
    (idx17.map fun y => colTerm b x y).sum = lineJumps fun y => b.read x y := by
  unfold lineJumps
  congr 1
  apply List.map_congr_left
  intro y _
  simp only [colTerm, Jump, add_zero]

theorem crossBoard_hole {b : Board} (hb : CrossBoard b) {x y : Int}
    (hx : 1 ≤ x ∧ x ≤ 7) (hy : 1 ≤ y ∧ y ≤ 7)
    (hc : (3 ≤ x ∧ x ≤ 5) ∨ (3 ≤ y ∧ y ≤ 5)) :
    b.read x y = some EMPTY_HOLE ∨ b.read x y = some FILLED_HOLE := by
  have hi : x.toNat < 9 := by omega
  have hj : y.toNat < 9 := by omega
  have hxe : ((x.toNat : Nat) : Int) = x := Int.toNat_of_nonneg (by omega)
  have hye : ((y.toNat : Nat) : Int) = y := Int.toNat_of_nonneg (by omega)
  have hf := read_fin b ⟨x.toNat, hi⟩ ⟨y.toNat, hj⟩
  simp only [hxe, hye] at hf
  have hin : InCross ⟨x.toNat, hi⟩ ⟨y.toNat, hj⟩ := by
    unfold InCross
    simp only
    omega
  rw [hf]
  rcases hb.2 _ _ hin with h | h
  · exact Or.inl (congrArg some h)
  · exact Or.inr (congrArg some h)

theorem crossBoard_off {b : Board} (hb : CrossBoard b) {x y : Int} (hg : InGrid x y)
    (hn : ¬ ((1 ≤ x ∧ x ≤ 7 ∧ 1 ≤ y ∧ y ≤ 7) ∧ ((3 ≤ x ∧ x ≤ 5) ∨ (3 ≤ y ∧ y ≤ 5)))) :
    b.read x y ≠ some EMPTY_HOLE ∧ b.read x y ≠ some FILLED_HOLE := by
  unfold InGrid at hg
  have hi : x.toNat < 9 := by omega
  have hj : y.toNat < 9 := by omega
  have hxe : ((x.toNat : Nat) : Int) = x := Int.toNat_of_nonneg (by omega)
  have hye : ((y.toNat : Nat) : Int) = y := Int.toNat_of_nonneg (by omega)
  have hf := read_fin b ⟨x.toNat, hi⟩ ⟨y.toNat, hj⟩
  simp only [hxe, hye] at hf
  have hout : ¬ InCross ⟨x.toNat, hi⟩ ⟨y.toNat, hj⟩ := by
    unfold InCross
    simp only
    omega
  have hnh : isHole (b ⟨x.toNat, hi⟩ ⟨y.toNat, hj⟩) ≠ true := fun h => hout ((hb.1 _ _).mp h)
  rw [hf]
  constructor
  · intro h
    rw [Option.some.inj h] at hnh
    exact hnh isHole_EMPTY
  · intro h
    rw [Option.some.inj h] at hnh
    exact hnh isHole_FILLED


theorem row_long {b : Board} (hb : CrossBoard b) {y : Int} (hy : 3 ≤ y ∧ y ≤ 5) :
    (lineJumps fun x => b.read x y) ≤ 4 :=
  lineJumps_long _
    (crossBoard_hole hb (by omega) (by omega) (by omega))
    (crossBoard_hole hb (by omega) (by omega) (by omega))
    (crossBoard_hole hb (by omega) (by omega) (by omega))
    (crossBoard_hole hb (by omega) (by omega) (by omega))
    (crossBoard_hole hb (by omega) (by omega) (by omega))
    (crossBoard_hole hb (by omega) (by omega) (by omega))
    (crossBoard_hole hb (by omega) (by omega) (by omega))
    (crossBoard_off hb (by unfold InGrid; omega) (by omega))
    (crossBoard_off hb (by unfold InGrid; omega) (by omega))

theorem col_long {b : Board} (hb : CrossBoard b) {x : Int} (hx : 3 ≤ x ∧ x ≤ 5) :
    (lineJumps fun y => b.read x y) ≤ 4 :=
  lineJumps_long _
    (crossBoard_hole hb (by omega) (by omega) (by omega))
    (crossBoard_hole hb (by omega) (by omega) (by omega))
    (crossBoard_hole hb (by omega) (by omega) (by omega))
    (crossBoard_hole hb (by omega) (by omega) (by omega))
    (crossBoard_hole hb (by omega) (by omega) (by omega))
    (crossBoard_hole hb (by omega) (by omega) (by omega))
    (crossBoard_hole hb (by omega) (by omega) (by omega))
    (crossBoard_off hb (by unfold InGrid; omega) (by omega))
    (crossBoard_off hb (by unfold InGrid; omega) (by omega))

theorem row_short {b : Board} (hb : CrossBoard b) {y : Int}
    (hy : (1 ≤ y ∧ y ≤ 2) ∨ (6 ≤ y ∧ y ≤ 7)) :
    (lineJumps fun x => b.read x y) ≤ 1 :=
  lineJumps_short _
    (crossBoard_hole hb (by omega) (by omega) (by omega))
    (crossBoard_hole hb (by omega) (by omega) (by omega))
    (crossBoard_hole hb (by omega) (by omega) (by omega))
    (crossBoard_off hb (by unfold InGrid; omega) (by omega))
    (crossBoard_off hb (by unfold InGrid; omega) (by omega))
    (crossBoard_off hb (by unfold InGrid; omega) (by omega))
    (crossBoard_off hb (by unfold InGrid; omega) (by omega))
    (crossBoard_off hb (by unfold InGrid; omega) (by omega))
    (crossBoard_off hb (by unfold InGrid; omega) (by omega))

theorem col_short {b : Board} (hb : CrossBoard b) {x : Int}
    (hx : (1 ≤ x ∧ x ≤ 2) ∨ (6 ≤ x ∧ x ≤ 7)) :
    (lineJumps fun y => b.read x y) ≤ 1 :=
  lineJumps_short _
    (crossBoard_hole hb (by omega) (by omega) (by omega))
    (crossBoard_hole hb (by omega) (by omega) (by omega))
    (crossBoard_hole hb (by omega) (by omega) (by omega))
    (crossBoard_off hb (by unfold InGrid; omega) (by omega))
    (crossBoard_off hb (by unfold InGrid; omega) (by omega))
    (crossBoard_off hb (by unfold InGrid; omega) (by omega))
    (crossBoard_off hb (by unfold InGrid; omega) (by omega))
    (crossBoard_off hb (by unfold InGrid; omega) (by omega))
    (crossBoard_off hb (by unfold InGrid; omega) (by omega))

/-- On a cross board at most 16 jumps run along rows and at most 16 along
columns. -/
theorem crossBoard_countP_le {b : Board} (hb : CrossBoard b) :
    candidates.countP (fun m => decide (Jump b m)) ≤ 32 := by
  rw [countP_candidates, sum_rows_cols (rowTerm b) (colTerm b)]
  simp only [rowTerm_sum, colTerm_sum]
  simp only [idx17, List.map_cons, List.map_nil, List.sum_cons, List.sum_nil]
  have r1 := row_short hb (y := 1) (by omega)
  have r2 := row_short hb (y := 2) (by omega)
  have r3 := row_long hb (y := 3) (by omega)
  have r4 := row_long hb (y := 4) (by omega)
  have r5 := row_long hb (y := 5) (by omega)
  have r6 := row_short hb (y := 6) (by omega)
  have r7 := row_short hb (y := 7) (by omega)
  have c1 := col_short hb (x := 1) (by omega)
  have c2 := col_short hb (x := 2) (by omega)
  have c3 := col_long hb (x := 3) (by omega)
  have c4 := col_long hb (x := 4) (by omega)
  have c5 := col_long hb (x := 5) (by omega)
  have c6 := col_short hb (x := 6) (by omega)
  have c7 := col_short hb (x := 7) (by omega)
  omega

theorem crossBoard_marginOff {b : Board} (hb : CrossBoard b) : MarginOff b := by
  intro i j hm
  unfold offBoard
  have hout : ¬ InCross i j := by
    unfold InCross
    unfold IsMargin at hm
    omega
  cases hh : isHole (b i j) with
  | true => exact absurd ((hb.1 i j).mp hh) hout
  | false => rfl

theorem initBoard_crossBoard : CrossBoard initBoard := by decide

theorem reachable_crossBoard {b : Board} (hr : Reachable b) : CrossBoard b := by
  induction hr with
  | init => exact initBoard_crossBoard
  | @step b b1 e m _ he hm ha ih =>
    have hl := (enumerate_mem_iff he m).mp hm
    refine ⟨crossHoles_applyMove hl.2.2 ha ih.1, ?_⟩
    intro i j hc
    have hr := read_applyMove ha (i.val : Int) (j.val : Int)
    rw [read_fin] at hr
    split_ifs at hr with c2 c0 c1
    · exact Or.inr (Option.some.inj hr)
    · exact Or.inl (Option.some.inj hr)
    · exact Or.inl (Option.some.inj hr)
    · rw [read_fin] at hr
      rw [Option.some.inj hr]
      exact ih.2 i j hc

/-! ## Games with the program's own generator -/

theorem redraw_mono (n : Nat) (fuel : Nat) :
    ∀ (fuel1 k k1 : Nat), redraw fuel k n = some k1 → fuel ≤ fuel1 →
      redraw fuel1 k n = some k1 := by
  induction fuel with
  | zero =>
    intro fuel1 k k1 h _
    cases h
  | succ fuel ih =>
    intro fuel1 k k1 h hle
    obtain ⟨f, rfl⟩ : ∃ f, fuel1 = f + 1 := ⟨fuel1 - 1, by omega⟩
    rw [redraw_succ] at h ⊢
    by_cases hr : rejected (step3 k) n = true
    · rw [if_pos hr] at h ⊢
      exact ih f (step3 k) k1 h (by omega)
    · rw [if_neg hr] at h ⊢
      exact h

/-- With `2 ^ 63 + 1` turns allowed, the redraw loop returns for every word
and every number of moves from 2 to 32. -/
theorem redraw_total (k n : Nat) (h2 : 2 ≤ n) (h32 : n ≤ 32) :
    ∃ k1, redraw (2 ^ 63 + 1) k n = some k1 := by
  obtain ⟨fuel, k1, hf, hd, _⟩ := redraw_isSome k n h2 h32
  exact ⟨k1, redraw_mono n fuel _ k k1 hd hf⟩

theorem enumerate_length_le {b : Board} (hb : CrossBoard b) {e : Scan}
    (he : enumerate b = some e) : e.moves.length ≤ 32 := by
  rw [(enumerate_eq_some he).1, ← List.countP_eq_length_filter]
  exact crossBoard_countP_le hb

/-- The game loop stops when the redraw loop comes back for every number of
moves that fits the buffer. -/
theorem playLoop_isSome_bounded {draw : Nat → Nat → Option Nat}
    (hd : ∀ k n, 1 < n → n ≤ 32 → ∃ k1, draw k n = some k1) (fuel : Nat) {s : GameState}
    (hr : Reachable s.board) (hf : numPegs s.board ≤ fuel) :
    ∃ out, playLoop draw fuel s = some out := by
  induction fuel generalizing s with
  | zero =>
    have := (reachable_numPegs hr).1
    omega
  | succ fuel ih =>
    obtain ⟨e, he⟩ := enumerate_isSome (reachable_inv hr).2
    have hlen := enumerate_length_le (reachable_crossBoard hr) he
    unfold playLoop
    rw [he, Option.some_bind]
    by_cases h0 : e.moves.length = 0
    · rw [if_pos h0]
      exact ⟨_, rfl⟩
    · rw [if_neg h0]
      have hc : ∃ c, choose draw s.kernel e.moves.length = some c := by
        unfold choose
        by_cases h1 : 1 < e.moves.length
        · rw [if_pos h1]
          obtain ⟨k1, hk⟩ := hd s.kernel e.moves.length h1 hlen
          rw [hk]
          exact ⟨_, rfl⟩
        · rw [if_neg h1]
          exact ⟨_, rfl⟩
      obtain ⟨c, hc⟩ := hc
      have hlt := choose_lt (Nat.pos_of_ne_zero h0) hc
      have hget : e.moves.get? c.2 = some (e.moves.get ⟨c.2, hlt⟩) := List.get?_eq_get hlt
      have hmem : e.moves.get ⟨c.2, hlt⟩ ∈ e.moves := List.get_mem _ _ _
      have hl := (enumerate_mem_iff he _).mp hmem
      obtain ⟨b1, hb1⟩ := applyMove_isSome_of_jump hl.2.2
      rw [hc, Option.some_bind, hget, Option.some_bind, hb1, Option.some_bind]
      have h1 := numPegs_applyMove (reachable_inv hr).2 hl hb1
      exact ih (s := ⟨c.1, b1, s.game ++ [e.moves.get ⟨c.2, hlt⟩]⟩)
        (reachable_step hr hl hb1) (by show numPegs b1 ≤ fuel; omega)

/-- Every game played with the program's own generator comes to an end, from
every kernel: 32 passes of the game loop and `2 ^ 63 + 1` turns of each
redraw loop are enough. -/
theorem playGame_redraw_isSome (k : Nat) :
    ∃ out, playGame (redraw (2 ^ 63 + 1)) 32 k = some out ∧ out.game.length ≤ 31 := by
  have hd : ∀ k n, 1 < n → n ≤ 32 → ∃ k1, redraw (2 ^ 63 + 1) k n = some k1 :=
    fun k n h1 h32 => redraw_total k n (by omega) h32
  have hex : ∃ out, playGame (redraw (2 ^ 63 + 1)) 32 k = some out := by
    unfold playGame
    rw [initBoardOpt_eq, Option.some_bind]
    exact playLoop_isSome_bounded hd 32 (s := ⟨k, initBoard, []⟩) Reachable.init
      (by show numPegs initBoard ≤ 32; rw [initBoard_numPegs])
  obtain ⟨out, h⟩ := hex
  refine ⟨out, h, ?_⟩
  have hsum := (playGame_eq_some h).2.2.2.2
  have hpos := (reachable_numPegs (playGame_eq_some h).2.2.1).1
  rw [← (playGame_eq_some h).2.2.2.1] at hpos
  omega

/-! ## The claims, continued -/

/-- C11: on the initial board the enumerator returns exactly four moves, the
inward jumps into the centre from `(2, 4)` to the right, from `(6, 4)` to
the left, from `(4, 2)` down and from `(4, 6)` up; each of them is legal. -/
theorem C11_initial_moves :
    ∃ e, enumerate initBoard = some e ∧ e.moves.length = 4 ∧
      e.moves = [⟨2, 4, 1, 0⟩, ⟨4, 2, 0, 1⟩, ⟨4, 6, 0, -1⟩, ⟨6, 4, -1, 0⟩] ∧
      (∀ m : Move, m ∈ e.moves ↔
        m = ⟨2, 4, 1, 0⟩ ∨ m = ⟨6, 4, -1, 0⟩ ∨ m = ⟨4, 2, 0, 1⟩ ∨ m = ⟨4, 6, 0, -1⟩) ∧
      (∀ m : Move, Legal initBoard m ↔ m ∈ e.moves) := by
  refine ⟨_, enumerate_initBoard, rfl, rfl, ?_, ?_⟩
  · intro m
    simp only [List.mem_cons, List.mem_singleton, List.not_mem_nil, or_false]
    tauto
  · intro m
    exact (enumerate_mem_iff enumerate_initBoard m).symm

/-- C12, amended: for every target `n` with `1 ≤ n < 2 ^ 32` the loop
condition is `game_count < n`, a run that stops has played exactly `n`
games, whatever their outcomes, and with a redraw loop that always comes
back the run does stop, within `n + 1` tests of the condition. -/
theorem C12_target_count (gr : Nat) (h0 : 1 ≤ gr) (h1 : gr < 2 ^ 32) :
    (∀ d : Driver, continues gr d = some (decide (d.game_count < gr))) ∧
    (∀ (draw : Nat → Nat → Option Nat) (fuel k n : Nat) (d : Driver),
      runLoop draw fuel gr n (initDriver k) = some d →
        d.game_count = gr ∧ Played draw fuel gr k gr d) ∧
    (∀ draw : Nat → Nat → Option Nat, (∀ k n, 1 < n → ∃ k1, draw k n = some k1) →
      ∀ k : Nat, ∃ d, runLoop draw 32 gr (gr + 1) (initDriver k) = some d ∧
        d.game_count = gr) := by
  refine ⟨continues_target h0, fun draw fuel k n d h => runLoop_target h0 h1 h, ?_⟩
  intro draw hd k
  obtain ⟨d, h⟩ := runLoop_isSome hd h0 h1 (gr + 1) (Played.start (k := k)) (by omega)
  exact ⟨d, h, (runLoop_target h0 h1 h).1⟩

theorem C12_target_count_witness :
    (∀ d : Driver, continues 2 d = some (decide (d.game_count < 2))) ∧
    (∃ d, runLoop (fun k _ => some k) 32 2 (2 + 1) (initDriver 0) = some d ∧
      d.game_count = 2) :=
  ⟨(C12_target_count 2 (by decide) (by decide)).1,
    (C12_target_count 2 (by decide) (by decide)).2.2 (fun k _ => some k)
      (fun k _ _ => ⟨k, rfl⟩) 0⟩

/-- C12, as stated, fails for the target 0: no game has been played and
`0 < 0` is false, yet the loop condition holds, a game is played, and the
counter passes the target. -/
theorem C12_counterexample :
    continues 0 (initDriver (seedKernel 1700000000)) = some true ∧
    ¬ ((initDriver (seedKernel 1700000000)).game_count < 0) ∧
    ∃ d1, Played (redraw 100) 32 0 (seedKernel 1700000000) 1 d1 ∧ d1.game_count = 1 := by
  refine ⟨by decide, by decide, ?_⟩
  obtain ⟨out, ho⟩ := Option.isSome_iff_exists.mp sample_game
  obtain ⟨d1, h⟩ := driverStep_isSome 0 (initDriver (seedKernel 1700000000)) rfl rfl ho
  have hp : Played (redraw 100) 32 0 (seedKernel 1700000000) 1 d1 :=
    Played.game Played.start (by decide) h
  exact ⟨d1, hp, (played_inv hp).1⟩

/-- C14: when a run without a target stops, entry 1 of the histogram is at
least 1 (it is 1) and equals the number of reported games with one peg; the
one reported game is the last game played, which ended with one peg, and no
game before it was reported. -/
theorem C14_win_seeking (draw : Nat → Nat → Option Nat) (fuel k n : Nat) (d : Driver)
    (h : runLoop draw fuel 0 n (initDriver k) = some d) :
    (∃ v, d.histogram.get? 1 = some v ∧ 1 ≤ v ∧
      v = (d.reported.filter fun o => o.num_pegs == 1).length) ∧
    ∃ j d0 out, Played draw fuel 0 k j d0 ∧ continues 0 d0 = some true ∧
      playGame draw fuel d0.kernel = some out ∧ driverStep draw fuel 0 d0 = some d ∧
      out.num_pegs = 1 ∧ d0.reported = [] ∧ d.reported = [out] := by
  obtain ⟨h1, j, d0, out, hp, hc, ho, hs, hpeg, hnil, hr⟩ := runLoop_win_seeking h
  refine ⟨⟨1, h1, Nat.le_refl 1, ?_⟩, j, d0, out, hp, hc, ho, hs, hpeg, hnil, hr⟩
  rw [hr]
  simp [hpeg]

theorem C14_win_seeking_witness :
    ∃ d, runLoop (scriptedDraw winningScript) 32 0 2 (initDriver 0) = some d ∧
      (∃ v, d.histogram.get? 1 = some v ∧ 1 ≤ v ∧
        v = (d.reported.filter fun o => o.num_pegs == 1).length) ∧
      ∃ j d0 out, Played (scriptedDraw winningScript) 32 0 0 j d0 ∧
        continues 0 d0 = some true ∧
        playGame (scriptedDraw winningScript) 32 d0.kernel = some out ∧
        driverStep (scriptedDraw winningScript) 32 0 d0 = some d ∧
        out.num_pegs = 1 ∧ d0.reported = [] ∧ d.reported = [out] := by
  obtain ⟨d, h⟩ := Option.isSome_iff_exists.mp sample_win
  exact ⟨d, h, C14_win_seeking _ _ _ _ d h⟩

/-- C16: on every board whose margin is off-board, in particular on every
reachable board, each cell the scan reads lies on the `9 x 9` array: the
origin, the first cell probed in each direction, and the second, which is
read only when the first holds a peg; the scan therefore returns, and every
move of its list reads and writes cells on the array when it is executed. -/
theorem C16_probes_in_range :
    (∀ b : Board, MarginOff b →
      (∀ x y dx dy : Int, 1 ≤ x → x ≤ 7 → 1 ≤ y → y ≤ 7 →
        ((dx = 1 ∧ dy = 0) ∨ (dx = -1 ∧ dy = 0) ∨ (dx = 0 ∧ dy = 1) ∨ (dx = 0 ∧ dy = -1)) →
        InGrid x y ∧ InGrid (x + dx) (y + dy) ∧
        (b.read (x + dx) (y + dy) = some FILLED_HOLE → InGrid (x + 2 * dx) (y + 2 * dy)) ∧
        ∃ r, probe b x y dx dy = some r) ∧
      ∃ e, enumerate b = some e ∧
        ∀ m ∈ e.moves, InGrid m.x m.y ∧ InGrid (m.x + m.dx) (m.y + m.dy) ∧
          InGrid (m.x + 2 * m.dx) (m.y + 2 * m.dy) ∧ ∃ b1, applyMove b m = some b1) ∧
    (∀ b : Board, Reachable b → MarginOff b) := by
  refine ⟨?_, fun b hb => (reachable_inv hb).2⟩
  intro b hb
  constructor
  · intro x y dx dy hx1 hx7 hy1 hy7 hd
    refine ⟨?_, ?_, ?_, probe_isSome hb dx dy ⟨hx1, hx7⟩ ⟨hy1, hy7⟩ hd⟩
    · unfold InGrid
      omega
    · unfold InGrid
      omega
    · intro hr
      have := inside_of_isHole hb hr isHole_FILLED
      unfold InGrid
      omega
  · obtain ⟨e, he⟩ := enumerate_isSome hb
    refine ⟨e, he, ?_⟩
    intro m hm
    have hl := (enumerate_mem_iff he m).mp hm
    obtain ⟨g0, g1, g2⟩ := inGrid_of_applyMove (applyMove_isSome_of_jump hl.2.2).choose_spec
    have e1 : m.x + 2 * m.dx = m.x + m.dx + m.dx := by omega
    have e2 : m.y + 2 * m.dy = m.y + m.dy + m.dy := by omega
    rw [e1, e2]
    exact ⟨g0, g1, g2, applyMove_isSome_of_jump hl.2.2⟩

theorem C16_probes_in_range_witness :
    (InGrid 7 4 ∧ InGrid (7 + 1) (4 + 0) ∧
      (initBoard.read (7 + 1) (4 + 0) = some FILLED_HOLE → InGrid (7 + 2 * 1) (4 + 2 * 0)) ∧
      ∃ r, probe initBoard 7 4 1 0 = some r) ∧
    MarginOff initBoard :=
  ⟨(C16_probes_in_range.1 initBoard initBoard_marginOff).1 7 4 1 0
      (by decide) (by decide) (by decide) (by decide) (by decide),
    C16_probes_in_range.2 initBoard Reachable.init⟩

/-- C17, amended: after initialisation every cell of the cross except the
centre is filled-hole, 32 cells in all, the centre `(4, 4)` is empty-hole,
and the remaining 16 cells of the `7 x 7` interior, like the margin, hold 0
and are off-board. -/
theorem C17_initial_interior :
    initBoardOpt = some initBoard ∧
    (∀ i j : Fin 9, initBoard i j =
      if InCross i j then (if i.val = 4 ∧ j.val = 4 then EMPTY_HOLE else FILLED_HOLE)
      else 0) ∧
    numPegs initBoard = 32 ∧
    countCells EMPTY_HOLE interior initBoard = 1 ∧
    countCells 0 interior initBoard = 16 :=
  ⟨initBoardOpt_eq, initBoard_cells, initBoard_numPegs, by decide, by decide⟩

/-- C17, as stated, fails: the corner `(1, 1)` of the `7 x 7` interior is not
the centre and is not filled-hole after initialisation; it holds 0. -/
theorem C17_counterexample :
    initBoard.read 1 1 = some 0 ∧
    ¬ (∀ x y : Int, 1 ≤ x → x ≤ 7 → 1 ≤ y → y ≤ 7 → ¬ (x = 4 ∧ y = 4) →
      initBoard.read x y = some FILLED_HOLE) := by
  refine ⟨by decide, ?_⟩
  intro h
  have h11 := h 1 1 (by decide) (by decide) (by decide) (by decide) (by decide)
  revert h11
  decide

/-- C19: in every state of a run the histogram has 32 entries and entry 0 is
zero; every finished game ends with 1 to 31 pegs, so that its update of the
histogram stays inside the array; and every nonzero entry has its index in
`1..31` and is printed by the final report when that runs. -/
theorem C19_histogram_index (draw : Nat → Nat → Option Nat) (fuel gr k n : Nat) (d : Driver)
    (h : Played draw fuel gr k n d) :
    d.histogram.length = 32 ∧ d.histogram.get? 0 = some 0 ∧
    (∀ (k1 : Nat) (out : Outcome), playGame draw fuel k1 = some out →
      1 ≤ out.game.length ∧ 1 ≤ out.num_pegs ∧ out.num_pegs ≤ 31 ∧
      ∃ h1, bump d.histogram out.num_pegs = some h1) ∧
    (∀ i v : Nat, d.histogram.get? i = some v → v ≠ 0 →
      (1 ≤ i ∧ i ≤ 31) ∧ (1 < d.game_count → (i, v) ∈ finalReport d)) := by
  have hlen := (played_inv h).2.2.2
  refine ⟨hlen, played_hist_zero h, ?_, fun i v hv hne => mem_finalReport h hv hne⟩
  intro k1 out ho
  obtain ⟨g1, g2⟩ := playGame_game_pos ho
  obtain ⟨_, _, h3, h4, _⟩ := playGame_eq_some ho
  have hb := reachable_numPegs h3
  rw [← h4] at hb
  exact ⟨g1, hb.1, g2, bump_isSome (by omega)⟩

theorem C19_histogram_index_witness :
    ∃ d1, driverStep (redraw 100) 32 0 (initDriver (seedKernel 1700000000)) = some d1 ∧
      d1.histogram.length = 32 ∧ d1.histogram.get? 0 = some 0 ∧
      (∀ (k1 : Nat) (out : Outcome), playGame (redraw 100) 32 k1 = some out →
        1 ≤ out.game.length ∧ 1 ≤ out.num_pegs ∧ out.num_pegs ≤ 31 ∧
        ∃ h1, bump d1.histogram out.num_pegs = some h1) ∧
      (∀ i v : Nat, d1.histogram.get? i = some v → v ≠ 0 →
        (1 ≤ i ∧ i ≤ 31) ∧ (1 < d1.game_count → (i, v) ∈ finalReport d1)) := by
  obtain ⟨out, ho⟩ := Option.isSome_iff_exists.mp sample_game
  obtain ⟨d1, h⟩ := driverStep_isSome 0 (initDriver (seedKernel 1700000000)) rfl rfl ho
  have hp : Played (redraw 100) 32 0 (seedKernel 1700000000) 1 d1 :=
    Played.game Played.start (by decide) h
  exact ⟨d1, h, C19_histogram_index _ _ _ _ _ d1 hp⟩


/-- C15: on 64-bit words the step `k ↦ ((k << 4) - k) ^ 1` is the map
`k ↦ (15 * k mod 2 ^ 64) xor 1`; it takes words to words, it is injective
and onto, and `prevKernel` is its inverse. -/
theorem C15_step_bijective :
    (∀ k : Nat, nextKernel k < 2 ^ 64 ∧ nextKernel k = (15 * k % 2 ^ 64) ^^^ 1) ∧
    (∀ a b : Nat, a < 2 ^ 64 → b < 2 ^ 64 → nextKernel a = nextKernel b → a = b) ∧
    (∀ c : Nat, c < 2 ^ 64 → ∃ k, k < 2 ^ 64 ∧ nextKernel k = c) ∧
    (∀ k : Nat, k < 2 ^ 64 → prevKernel (nextKernel k) = k ∧ nextKernel (prevKernel k) = k) ∧
    Set.BijOn nextKernel (Set.Iio (2 ^ 64)) (Set.Iio (2 ^ 64)) := by
  have inj : ∀ a b : Nat, a < 2 ^ 64 → b < 2 ^ 64 → nextKernel a = nextKernel b → a = b := by
    intro a b ha hb h
    rw [← prevKernel_nextKernel a ha, ← prevKernel_nextKernel b hb, h]
  have surj : ∀ c : Nat, c < 2 ^ 64 → ∃ k, k < 2 ^ 64 ∧ nextKernel k = c :=
    fun c hc => ⟨prevKernel c, prevKernel_lt c, nextKernel_prevKernel c hc⟩
  refine ⟨fun k => ⟨nextKernel_lt k, nextKernel_eq k⟩, inj, surj,
    fun k hk => ⟨prevKernel_nextKernel k hk, nextKernel_prevKernel k hk⟩, ?_, ?_, ?_⟩
  · intro k _
    exact nextKernel_lt k
  · intro a ha b hb h
    exact inj a b ha hb h
  · intro c hc
    obtain ⟨k, hk, he⟩ := surj c hc
    exact ⟨k, hk, he⟩

theorem C15_step_bijective_witness :
    (nextKernel 5 = nextKernel 5 → (5 : Nat) = 5) ∧ (∃ k, k < 2 ^ 64 ∧ nextKernel k = 7) ∧
    (prevKernel (nextKernel 5) = 5 ∧ nextKernel (prevKernel 5) = 5) :=
  ⟨C15_step_bijective.2.1 5 5 (by decide) (by decide),
    C15_step_bijective.2.2.1 7 (by decide),
    C15_step_bijective.2.2.2.1 5 (by decide)⟩

/-- C20: for every word and every number of moves `n` with `2 ≤ n ≤ 32` the
redraw loop stops, after at most `2 ^ 63 + 1` turns of three steps each, in
a word whose top byte is below `256 / n * n`; the index it selects, the top
byte modulo `n`, is below `n`. -/
theorem C20_redraw_terminates (k n : Nat) (h2 : 2 ≤ n) (h32 : n ≤ 32) :
    ∃ fuel k1, fuel ≤ 2 ^ 63 + 1 ∧ redraw fuel k n = some k1 ∧
      (∃ s, 1 ≤ s ∧ k1 = step3^[s] k) ∧
      topByte k1 < 256 / n * n ∧ pickIndex n (topByte k1) < n := by
  obtain ⟨fuel, k1, hf, hd, ha, hs⟩ := redraw_isSome k n h2 h32
  refine ⟨fuel, k1, hf, hd, hs, rejected_eq_false.mp ha, ?_⟩
  unfold pickIndex
  exact Nat.mod_lt _ (by omega)

theorem C20_redraw_terminates_witness :
    ∃ fuel k1, fuel ≤ 2 ^ 63 + 1 ∧ redraw fuel (seedKernel 1700000000) 3 = some k1 ∧
      (∃ s, 1 ≤ s ∧ k1 = step3^[s] (seedKernel 1700000000)) ∧
      topByte k1 < 256 / 3 * 3 ∧ pickIndex 3 (topByte k1) < 3 :=
  C20_redraw_terminates (seedKernel 1700000000) 3 (by decide) (by decide)


/-- C18: on every board whose holes are exactly the 33 cells of the cross,
each empty or filled, reachable or not, the scan returns and its list has at
most 32 moves, the capacity of the `moves` buffer; reachable boards are such
boards. -/
theorem C18_moves_fit :
    (∀ b : Board, CrossBoard b → ∃ e, enumerate b = some e ∧ e.moves.length ≤ 32) ∧
    (∀ b : Board, Reachable b → CrossBoard b) := by
  constructor
  · intro b hb
    obtain ⟨e, he⟩ := enumerate_isSome (crossBoard_marginOff hb)
    refine ⟨e, he, ?_⟩
    rw [(enumerate_eq_some he).1, ← List.countP_eq_length_filter]
    exact crossBoard_countP_le hb
  · intro b hr
    exact reachable_crossBoard hr

theorem C18_moves_fit_witness :
    (∃ e, enumerate initBoard = some e ∧ e.moves.length ≤ 32) ∧ CrossBoard initBoard :=
  ⟨C18_moves_fit.1 initBoard initBoard_crossBoard, C18_moves_fit.2 initBoard Reachable.init⟩


/-! ## A run that wraps the counter -/

end Peg
